import Mathlib

/-!
Verification of the axfs-ng-vfs core (dentry cache, mounts, resolver) against
its natural-language specification.

The Rust sources are embedded shallowly:
* pure enumerations and record types become Lean inductives / structures;
* the pointer-based dentry / mount graph becomes an explicit heap (`State`)
  with `Nat` identifiers standing for `Arc` addresses, so that the source's
  pointer equality (`Arc::ptr_eq`) becomes equality of identifiers;
* fallible Rust functions returning `VfsResult<T>` become functions into
  `Except VfsError T`; stateful functions additionally thread the heap.

The backend traits (`DirNodeOps`, `FileNodeOps`) are instantiated by the
canonical conforming backend described by their documentation comments in
`src/node/dir.rs` (lookup errors `ENOENT` on absent names, unlink errors
`ENOTEMPTY` on non-empty directories, rename of identical source and
destination is a no-op, ...), realised over an inode store inside the heap.
-/

set_option maxRecDepth 10000

deriving instance DecidableEq for Except

namespace AxfsVfs

/-- POSIX-style error kinds used by the VFS core (`VfsError = axerrno::AxError`,
restricted to the kinds named by the spec). -/
inductive VfsError where
  | ENOENT
  | EEXIST
  | EISDIR
  | ENOTDIR
  | ENOTEMPTY
  | EINVAL
  | EBUSY
  | EXDEV
  | EIO
  | ENOTTY
  | EACCES
  deriving DecidableEq, Repr

/-- `NodeType` from `src/types.rs`: the seven declared variants.  (The source
enumeration has no `Unknown` variant; decoding is via the strict `TryFrom`.) -/
inductive NodeType where
  | fifo
  | characterDevice
  | directory
  | blockDevice
  | regularFile
  | symlink
  | socket
  deriving DecidableEq, Repr, Fintype

/-- The numeric discriminant of each `NodeType` variant (`#[repr(u8)]`,
octal values from `src/types.rs`). -/
def NodeType.toU8 : NodeType → Nat
  | .fifo => 0o1
  | .characterDevice => 0o2
  | .directory => 0o4
  | .blockDevice => 0o6
  | .regularFile => 0o10
  | .symlink => 0o12
  | .socket => 0o14

/-- `impl TryFrom<u8> for NodeType` from `src/types.rs`: the strict decoder.
Rust's `Result<Self, ()>` is rendered as `Option NodeType`. -/
def NodeType.tryFrom (value : Nat) : Option NodeType :=
  if value = 0o1 then some .fifo
  else if value = 0o2 then some .characterDevice
  else if value = 0o4 then some .directory
  else if value = 0o6 then some .blockDevice
  else if value = 0o10 then some .regularFile
  else if value = 0o12 then some .symlink
  else if value = 0o14 then some .socket
  else none

/-- `Metadata` from `src/types.rs`.  `mode` is the raw `NodePermission` bit
set; the `Duration` time stamps are rendered as natural numbers. -/
structure Metadata where
  device : Nat
  inode : Nat
  nlink : Nat
  mode : Nat
  node_type : NodeType
  uid : Nat
  gid : Nat
  size : Nat
  block_size : Nat
  blocks : Nat
  atime : Nat
  mtime : Nat
  ctime : Nat
  deriving DecidableEq, Repr

/-- `DirEntry::metadata` from `src/node/mod.rs`: take the backend node's
metadata and overwrite its `node_type` with the dentry's declared type. -/
def direntryMetadata (declared : NodeType) (backend : Except VfsError Metadata) :
    Except VfsError Metadata :=
  backend.map fun m => { m with node_type := declared }

/-- `Location::metadata` from `src/mount.rs`: take the entry's metadata and
overwrite its `device` with the owning mountpoint's device id. -/
def locationMetadata (mountDevice : Nat) (declared : NodeType)
    (backend : Except VfsError Metadata) : Except VfsError Metadata :=
  (direntryMetadata declared backend).map fun m => { m with device := mountDevice }

/-! ### UTF-8 validation

`DirEntry::read_link` converts the bytes read from the backing file with
`String::from_utf8`, which succeeds exactly on valid (strict, RFC 3629)
UTF-8.  A Rust `String` is modelled as its byte sequence; the validator
below implements the strict byte-range table. -/

/-- A UTF-8 continuation byte: `0x80 ..= 0xBF`. -/
def isCont (b : Nat) : Bool :=
  0x80 ≤ b && b ≤ 0xbf

/-- Admissible second byte of a three-byte sequence with lead byte `b`
(excluding overlong encodings and surrogates). -/
def valid3Second (b b1 : Nat) : Bool :=
  if b = 0xe0 then 0xa0 ≤ b1 && b1 ≤ 0xbf
  else if b = 0xed then 0x80 ≤ b1 && b1 ≤ 0x9f
  else isCont b1

/-- Admissible second byte of a four-byte sequence with lead byte `b`
(excluding overlong encodings and values above U+10FFFF). -/
def valid4Second (b b1 : Nat) : Bool :=
  if b = 0xf0 then 0x90 ≤ b1 && b1 ≤ 0xbf
  else if b = 0xf4 then 0x80 ≤ b1 && b1 ≤ 0x8f
  else isCont b1

/-- Strict UTF-8 validity of a byte sequence, as checked by Rust's
`String::from_utf8`. -/
def utf8Valid : List Nat → Bool
  | [] => true
  | b :: r =>
    if b < 0x80 then utf8Valid r
    else if b < 0xc2 then false
    else if b < 0xe0 then
      match r with
      | b1 :: r1 => isCont b1 && utf8Valid r1
      | [] => false
    else if b < 0xf0 then
      match r with
      | b1 :: b2 :: r2 => valid3Second b b1 && isCont b2 && utf8Valid r2
      | _ => false
    else if b < 0xf5 then
      match r with
      | b1 :: b2 :: b3 :: r3 =>
        valid4Second b b1 && isCont b2 && isCont b3 && utf8Valid r3
      | _ => false
    else false

/-! ### `DirEntry::read_link` (local model)

`read_link` only touches the entry's declared `node_type`, its `File`/`Dir`
variant and the backing `FileNodeOps` (`len`, `read_at`).  Those are
captured by a small stand-alone record. -/

/-- The part of a `FileNodeOps` backend that `read_link` exercises:
`len()`, and `read_at(buf, 0)` which fills a prefix of the buffer and
returns the bytes placed (their count is the Rust return value). -/
structure FileBackend where
  len : Except VfsError Nat
  readAt : Nat → Except VfsError (List Nat)
  deriving Inhabited

/-- The dentry's node variant, as far as `read_link` is concerned. -/
inductive NodeVariant where
  | file (fb : FileBackend)
  | dir

/-- The inputs to `DirEntry::read_link`: the declared node type and the node
variant (`Symlink` is stored as `File`). -/
structure LinkEntry where
  node_type : NodeType
  node : NodeVariant

/-- `DirEntry::read_link` from `src/node/mod.rs`:
reject non-symlinks with `EINVAL`; `as_file` (`EISDIR` on a directory
variant); allocate a zero buffer of `len()` bytes; `read_at(buf, 0)` fills a
prefix (its count is ignored); `String::from_utf8` of the whole buffer,
`EINVAL` on invalid UTF-8.  The resulting Rust `String` is modelled as its
byte sequence. -/
def readLink (e : LinkEntry) : Except VfsError (List Nat) :=
  if e.node_type ≠ NodeType.symlink then .error .EINVAL
  else match e.node with
    | .dir => .error .EISDIR
    | .file fb =>
      match fb.len with
      | .error er => .error er
      | .ok n =>
        match fb.readAt n with
        | .error er => .error er
        | .ok bytes =>
          let buf := bytes.take n ++ List.replicate (n - (bytes.take n).length) 0
          if utf8Valid buf then .ok buf else .error .EINVAL

/-! ### The dentry / mount heap

`Arc`-shared objects of the source become heap cells addressed by `Nat`
identifiers; `Arc::ptr_eq` becomes identifier equality.  Fresh allocations
(`DirEntry` construction during backend `lookup` / `create` / `link`) append
to the heap, so identifiers grow along ownership edges. -/

abbrev EntryId := Nat
abbrev InodeId := Nat
abbrev MountId := Nat

/-- The `Node` variant tag of a dentry (`File(FileNode) | Dir(DirNode)`). -/
inductive NodeKind where
  | file
  | dir
  deriving DecidableEq, Repr

/-- A backend inode of the canonical conforming backend: directory contents
live in `children`; `cacheable` is the directory's `DirNodeOps::is_cacheable`
answer; `mode`, `uid`, `gid` back `update_metadata`. -/
structure Inode where
  kind : NodeKind
  node_type : NodeType
  cacheable : Bool
  children : List (String × InodeId)
  mode : Nat
  uid : Nat
  gid : Nat
  deriving DecidableEq, Repr

instance : Inhabited Inode :=
  ⟨{ kind := .file, node_type := .regularFile, cacheable := true, children := [],
     mode := 0, uid := 0, gid := 0 }⟩

/-- `Reference` from `src/node/mod.rs`: `{ parent: Option<DirEntry>, name }`. -/
structure Reference where
  parent : Option EntryId
  name : String
  deriving DecidableEq, Repr

/-- A dentry (`DirEntry`): the backend object it wraps (`inode`), the
`File`/`Dir` variant tag, the declared `node_type`, its `reference`, and the
`DirNode`-owned child cache and mountpoint slot (dir variant only). -/
structure EntryObj where
  inode : InodeId
  kind : NodeKind
  node_type : NodeType
  ref : Reference
  cache : List (String × EntryId)
  mnt : Option MountId
  deriving DecidableEq, Repr

instance : Inhabited EntryObj :=
  ⟨{ inode := 0, kind := .file, node_type := .regularFile,
     ref := ⟨none, ""⟩, cache := [], mnt := none }⟩

/-- `Mountpoint` from `src/mount.rs` (the `children` weak-registry is not
needed by any claim and is omitted). -/
structure MountObj where
  root : EntryId
  location : Option (MountId × EntryId)
  device : Nat
  deriving DecidableEq, Repr

instance : Inhabited MountObj := ⟨{ root := 0, location := none, device := 0 }⟩

/-- `Location`: `{ mountpoint: Arc<Mountpoint>, entry: DirEntry }` as a pair
of identifiers; `Location::ptr_eq` is plain equality. -/
structure Location where
  mount : MountId
  entry : EntryId
  deriving DecidableEq, Repr

/-- The whole heap: backend inode store, dentry store, mount store. -/
structure State where
  inodes : List Inode
  entries : List EntryObj
  mounts : List MountObj
  deriving DecidableEq, Repr

def State.inode (s : State) (i : InodeId) : Inode := s.inodes.getD i default

def State.entry (s : State) (i : EntryId) : EntryObj := s.entries.getD i default

def State.mount (s : State) (m : MountId) : MountObj := s.mounts.getD m default

def State.setEntry (s : State) (i : EntryId) (e : EntryObj) : State :=
  { s with entries := s.entries.set i e }

def State.setInode (s : State) (i : InodeId) (nd : Inode) : State :=
  { s with inodes := s.inodes.set i nd }

/-! ### Ordered-map primitives (`BTreeMap` as an association list) -/

def assocGet {α : Type} : List (String × α) → String → Option α
  | [], _ => none
  | (k1, v1) :: r, k => if k1 = k then some v1 else assocGet r k

/-- `BTreeMap::insert`: replace an existing binding in place, else append. -/
def assocSet {α : Type} : List (String × α) → String → α → List (String × α)
  | [], k, v => [(k, v)]
  | (k1, v1) :: r, k, v => if k1 = k then (k, v) :: r else (k1, v1) :: assocSet r k v

/-- `BTreeMap::remove`. -/
def assocRemove {α : Type} : List (String × α) → String → List (String × α)
  | [], _ => []
  | (k1, v1) :: r, k => if k1 = k then r else (k1, v1) :: assocRemove r k

/-! ### Paths

Path string parsing is a provided library (out of scope for the core); a
path is modelled from the spec as its parsed component sequence, with the
`.`/`..`/root/normal component tags. -/

/-- Modelled from the spec: the component tags of the provided path library
(`Component` in `src/resolve.rs` comes from the missing `path` module). -/
inductive Component where
  | rootDir
  | curDir
  | parentDir
  | normal (s : String)
  deriving DecidableEq, Repr

abbrev Path := List Component

/-- Modelled from the spec: `Path::file_name()` of the provided path library;
the final component when it is a normal name. -/
def fileName (p : Path) : Option String :=
  match p.getLast? with
  | some (.normal s) => some s
  | _ => none

/-- Modelled from the spec: `verify_entry_name` from the missing `path`
module rejects the empty name, `"."`, `".."` and names containing `/` with
`EINVAL`. -/
def verifyEntryName (name : String) : Except VfsError Unit :=
  if name = "" || name = "." || name = ".." || name.data.contains '/' then .error .EINVAL
  else .ok ()

/-! ### Canonical backend (`DirNodeOps` realisation)

The documented contract from `src/node/dir.rs`: `lookup` errors `ENOENT` on
absent names and materialises a fresh dentry; `unlink` errors `ENOTEMPTY`
for non-empty directories; `rename` replaces the destination and treats
identical source and destination as a no-op. -/

/-- Dentry construction done by a backend when it answers `lookup` /
`create` / `link`: `DirEntry::new_file(node, node_type, reference)` or
`DirEntry::new_dir(..)` (the latter forces `node_type = Directory`). -/
def materialize (s : State) (parent : EntryId) (name : String) (ino : InodeId) :
    EntryId × State :=
  let nd := s.inode ino
  let e : EntryObj :=
    { inode := ino
      kind := nd.kind
      node_type := if nd.kind = .dir then .directory else nd.node_type
      ref := ⟨some parent, name⟩
      cache := []
      mnt := none }
  (s.entries.length, { s with entries := s.entries ++ [e] })

/-- Backend `DirNodeOps::lookup` for the directory dentry `d`. -/
def backendLookup (s : State) (d : EntryId) (name : String) :
    Except VfsError EntryId × State :=
  match assocGet (s.inode (s.entry d).inode).children name with
  | none => (.error .ENOENT, s)
  | some ino =>
    let (e, s1) := materialize s d name ino
    (.ok e, s1)

/-- Backend `DirNodeOps::create`: fail with `EEXIST` on an existing name,
else allocate a fresh inode, link it into the directory, and materialise a
dentry for it. -/
def backendCreate (s : State) (d : EntryId) (name : String) (t : NodeType)
    (perm : Nat) : Except VfsError EntryId × State :=
  let dIno := (s.entry d).inode
  if (assocGet (s.inode dIno).children name).isSome then (.error .EEXIST, s)
  else
    let newIno := s.inodes.length
    let nd : Inode :=
      { kind := if t = .directory then .dir else .file
        node_type := t
        cacheable := (s.inode dIno).cacheable
        children := []
        mode := perm
        uid := 0
        gid := 0 }
    let s1 := { s with inodes := s.inodes ++ [nd] }
    let s2 := s1.setInode dIno
      { s1.inode dIno with children := assocSet (s1.inode dIno).children name newIno }
    let (e, s3) := materialize s2 d name newIno
    (.ok e, s3)

/-- Backend `DirNodeOps::link`: fail with `EEXIST` on an existing name, else
add a hard link to the target's inode and materialise a dentry for it. -/
def backendLink (s : State) (d : EntryId) (name : String) (target : EntryId) :
    Except VfsError EntryId × State :=
  let dIno := (s.entry d).inode
  if (assocGet (s.inode dIno).children name).isSome then (.error .EEXIST, s)
  else
    let tIno := (s.entry target).inode
    let s1 := s.setInode dIno
      { s.inode dIno with children := assocSet (s.inode dIno).children name tIno }
    let (e, s2) := materialize s1 d name tIno
    (.ok e, s2)

/-- Backend `DirNodeOps::unlink`: `ENOENT` on an absent name, `ENOTEMPTY`
for a non-empty directory, else drop the name from the directory. -/
def backendUnlink (s : State) (d : EntryId) (name : String) :
    Except VfsError Unit × State :=
  let dIno := (s.entry d).inode
  match assocGet (s.inode dIno).children name with
  | none => (.error .ENOENT, s)
  | some ino =>
    if (s.inode ino).kind = .dir ∧ (s.inode ino).children ≠ [] then
      (.error .ENOTEMPTY, s)
    else
      (.ok (), s.setInode dIno
        { s.inode dIno with children := assocRemove (s.inode dIno).children name })

/-- Backend `DirNodeOps::rename`: `ENOENT` on an absent source; identical
source and destination links are a no-op (`Ok(())`, per the documented
contract); otherwise move the link, replacing any existing destination. -/
def backendRename (s : State) (d1 : EntryId) (src : String) (d2 : EntryId)
    (dst : String) : Except VfsError Unit × State :=
  let ino1 := (s.entry d1).inode
  let ino2 := (s.entry d2).inode
  match assocGet (s.inode ino1).children src with
  | none => (.error .ENOENT, s)
  | some srcIno =>
    if assocGet (s.inode ino2).children dst = some srcIno then (.ok (), s)
    else if ino1 = ino2 then
      (.ok (), s.setInode ino1
        { s.inode ino1 with
          children := assocSet (assocRemove (s.inode ino1).children src) dst srcIno })
    else
      let s1 := s.setInode ino1
        { s.inode ino1 with children := assocRemove (s.inode ino1).children src }
      (.ok (), s1.setInode ino2
        { s1.inode ino2 with children := assocSet (s1.inode ino2).children dst srcIno })

/-- Backend `read_dir`-based `DirNode::has_children`: the canonical backend
emits `.` and `..` and then the real entries, so the first non-dot entry
exists iff the inode's child list is non-empty. -/
def backendHasChildren (s : State) (d : EntryId) : Bool :=
  (s.inode (s.entry d).inode).children ≠ []

/-- `MetadataUpdate` (partial update; absent fields leave prior state). -/
structure MetadataUpdate where
  mode : Option Nat := none
  owner : Option (Nat × Nat) := none
  deriving DecidableEq, Repr

/-- Backend `NodeOps::update_metadata` of the canonical backend. -/
def updateMetadataOp (s : State) (e : EntryId) (u : MetadataUpdate) :
    Except VfsError Unit × State :=
  let ino := (s.entry e).inode
  let nd := s.inode ino
  (.ok (), s.setInode ino
    { nd with
      mode := u.mode.getD nd.mode
      uid := (u.owner.map Prod.fst).getD nd.uid
      gid := (u.owner.map Prod.snd).getD nd.gid })

/-! ### `DirNode` (cache layer), from `src/node/dir.rs` -/

/-- Whether the directory dentry `d` is cacheable (`self.ops.is_cacheable()`). -/
def dirCacheable (s : State) (d : EntryId) : Bool :=
  (s.inode (s.entry d).inode).cacheable

/-- `DirNode::lookup_locked`: answer from the child cache when present; on a
miss invoke backend `lookup` and memoize the result iff the directory is
cacheable. -/
def lookupLocked (s : State) (d : EntryId) (name : String) :
    Except VfsError EntryId × State :=
  match assocGet (s.entry d).cache name with
  | some e => (.ok e, s)
  | none =>
    match backendLookup s d name with
    | (.error er, s1) => (.error er, s1)
    | (.ok e, s1) =>
      if dirCacheable s1 d then
        (.ok e, s1.setEntry d
          { s1.entry d with cache := assocSet (s1.entry d).cache name e })
      else (.ok e, s1)

/-- `DirNode::lookup`: fast path through `lookup_locked` for cacheable
directories, otherwise straight to the backend. -/
def dirLookup (s : State) (d : EntryId) (name : String) :
    Except VfsError EntryId × State :=
  if dirCacheable s d then lookupLocked s d name
  else backendLookup s d name

/-- `DirNode::forget` with explicit recursion fuel: clear this directory's
cache (`mem::take`) and recursively forget every cached child that is a
directory. -/
def forgetF : Nat → State → EntryId → State
  | 0, s, _ => s
  | fuel + 1, s, d =>
    let ch := (s.entry d).cache
    let s1 := s.setEntry d { s.entry d with cache := [] }
    ch.foldl
      (fun acc pr =>
        if (acc.entry pr.2).kind = .dir then forgetF fuel acc pr.2 else acc)
      s1

/-- `DirNode::forget`; in a well-formed heap identifiers strictly grow along
cache edges, so `entries.length` steps of fuel always suffice. -/
def dirForget (s : State) (d : EntryId) : State :=
  forgetF s.entries.length s d

/-- `DirNode::forget_entry`: remove `name` from the cache and, when the
removed entry is a directory, forget its subtree. -/
def forgetEntryOp (s : State) (d : EntryId) (name : String) : State :=
  match assocGet (s.entry d).cache name with
  | none => s
  | some c =>
    let s1 := s.setEntry d
      { s.entry d with cache := assocRemove (s.entry d).cache name }
    if (s1.entry c).kind = .dir then dirForget s1 c else s1

/-- `DirNode::create_locked`: backend `create`, then insert the new dentry
into the cache (unconditionally). -/
def createLocked (s : State) (d : EntryId) (name : String) (t : NodeType)
    (perm : Nat) : Except VfsError EntryId × State :=
  match backendCreate s d name t perm with
  | (.error e, s1) => (.error e, s1)
  | (.ok entry, s1) =>
    (.ok entry, s1.setEntry d
      { s1.entry d with cache := assocSet (s1.entry d).cache name entry })

/-- `DirNode::create`: validate the name, then `create_locked`. -/
def dirCreate (s : State) (d : EntryId) (name : String) (t : NodeType)
    (perm : Nat) : Except VfsError EntryId × State :=
  match verifyEntryName name with
  | .error e => (.error e, s)
  | .ok _ => createLocked s d name t perm

/-- `DirNode::link`: validate the name, backend `link`, then insert the new
dentry into the cache. -/
def dirLink (s : State) (d : EntryId) (name : String) (target : EntryId) :
    Except VfsError EntryId × State :=
  match verifyEntryName name with
  | .error e => (.error e, s)
  | .ok _ =>
    match backendLink s d name target with
    | (.error e, s1) => (.error e, s1)
    | (.ok entry, s1) =>
      (.ok entry, s1.setEntry d
        { s1.entry d with cache := assocSet (s1.entry d).cache name entry })

/-- `DirNode::unlink`: validate the name; resolve it via `lookup_locked`;
check the `is_dir` flag against the entry's variant (`EISDIR`/`ENOTDIR` on
mismatch); backend `unlink`; on success drop the entry from the cache and
forget its subtree. -/
def dirUnlink (s : State) (d : EntryId) (name : String) (isDir : Bool) :
    Except VfsError Unit × State :=
  match verifyEntryName name with
  | .error e => (.error e, s)
  | .ok _ =>
    match lookupLocked s d name with
    | (.error e, s1) => (.error e, s1)
    | (.ok entry, s1) =>
      if (s1.entry entry).kind = .dir ∧ isDir = false then (.error .EISDIR, s1)
      else if (s1.entry entry).kind = .file ∧ isDir = true then (.error .ENOTDIR, s1)
      else
        match backendUnlink s1 d name with
        | (.error e, s2) => (.error e, s2)
        | (.ok _, s2) => (.ok (), forgetEntryOp s2 d name)

/-- `DirNode::rename`: validate both names; look up the source (and,
tolerating failure, the destination); reject `ENOTEMPTY` when a directory
would replace a non-empty directory and `EISDIR` when a non-directory would
replace a directory; backend `rename`; on success drop both source and
destination entries from their caches. -/
def dirRename (s : State) (d1 : EntryId) (src : String) (d2 : EntryId)
    (dst : String) : Except VfsError Unit × State :=
  match verifyEntryName src with
  | .error e => (.error e, s)
  | .ok _ =>
    match verifyEntryName dst with
    | .error e => (.error e, s)
    | .ok _ =>
      match lookupLocked s d1 src with
      | (.error e, s1) => (.error e, s1)
      | (.ok srcE, s1) =>
        let (dstRes, s2) := lookupLocked s1 d2 dst
        let check : Option VfsError :=
          match dstRes with
          | .error _ => none
          | .ok dstE =>
            if (s2.entry srcE).node_type = .directory then
              if (s2.entry dstE).kind = .dir ∧ backendHasChildren s2 dstE then
                some .ENOTEMPTY
              else none
            else if (s2.entry dstE).node_type = .directory then some .EISDIR
            else none
        match check with
        | some e => (.error e, s2)
        | none =>
          match backendRename s2 d1 src d2 dst with
          | (.error e, s3) => (.error e, s3)
          | (.ok _, s3) => (.ok (), forgetEntryOp (forgetEntryOp s3 d1 src) d2 dst)

/-- `OpenOptions` from `src/node/dir.rs`. -/
structure OpenOptions where
  create : Bool := false
  create_new : Bool := false
  permission : Nat := 0o666
  user : Option (Nat × Nat) := none
  deriving DecidableEq, Repr

/-- `DirNode::open_file`: validate the name; `lookup_locked`; an existing
entry is returned as-is unless `create_new` (then `EEXIST`); on `ENOENT`
with `create` set, create a regular file and optionally apply the owner via
`update_metadata`; any other error propagates. -/
def openFile (s : State) (d : EntryId) (name : String) (opts : OpenOptions) :
    Except VfsError EntryId × State :=
  match verifyEntryName name with
  | .error e => (.error e, s)
  | .ok _ =>
    match lookupLocked s d name with
    | (.ok val, s1) =>
      if opts.create_new then (.error .EEXIST, s1) else (.ok val, s1)
    | (.error e, s1) =>
      if e = .ENOENT ∧ opts.create then
        match createLocked s1 d name .regularFile opts.permission with
        | (.error e2, s2) => (.error e2, s2)
        | (.ok entry, s2) =>
          if opts.user.isSome then
            match updateMetadataOp s2 entry { owner := opts.user } with
            | (.error e3, s3) => (.error e3, s3)
            | (.ok _, s3) => (.ok entry, s3)
          else (.ok entry, s2)
      else (.error e, s1)

/-! ### Mount layer (`src/mount.rs`) -/

/-- `DirEntry::is_root_of_mount`: the reference has no parent. -/
def isRootOfMount (s : State) (e : EntryId) : Bool :=
  (s.entry e).ref.parent = none

/-- `DirEntry::is_ancestor_of` (with explicit fuel for the parent walk):
walk `other`'s parent chain and compare each node with `self` by pointer
equality. -/
def isAncestorOfF : Nat → State → EntryId → EntryId → Bool
  | 0, _, self_, cur => self_ = cur
  | fuel + 1, s, self_, cur =>
    if cur = self_ then true
    else
      match (s.entry cur).ref.parent with
      | some p => isAncestorOfF fuel s self_ p
      | none => false

/-- `DirEntry::is_ancestor_of`; in a well-formed heap parent identifiers
strictly decrease, so `entries.length` steps of fuel always suffice.  (The
source returns `VfsResult<bool>` but never errors.) -/
def isAncestorOf (s : State) (self_ other : EntryId) : Bool :=
  isAncestorOfF (s.entries.length + 1) s self_ other

/-- `DirEntry::collect_absolute_path` (with fuel): push the name of every
node on the parent chain, starting from the entry itself. -/
def collectAbsF : Nat → State → EntryId → List String → List String
  | 0, _, _, acc => acc
  | fuel + 1, s, e, acc =>
    let acc1 := acc ++ [(s.entry e).ref.name]
    match (s.entry e).ref.parent with
    | some p => collectAbsF fuel s p acc1
    | none => acc1

/-- `Mountpoint::effective_mountpoint` (with fuel): while the current
mount's root dentry has a mount stacked on it, descend into that mount. -/
def effectiveMountF : Nat → State → MountId → MountId
  | 0, _, m => m
  | fuel + 1, s, m =>
    match (s.entry (s.mount m).root).mnt with
    | some m1 => effectiveMountF fuel s m1
    | none => m

/-- `Mountpoint::effective_mountpoint`; in a well-formed heap mount
identifiers strictly grow along the stacking chain, so `mounts.length`
steps of fuel always suffice. -/
def effectiveMount (s : State) (m : MountId) : MountId :=
  effectiveMountF s.mounts.length s m

/-- `Location::resolve_mountpoint`: when the entry is a directory with a
mount stacked on it, replace the location with the effective child mount's
root. -/
def resolveMountpoint (s : State) (loc : Location) : Location :=
  match (if (s.entry loc.entry).kind = .dir then (s.entry loc.entry).mnt else none) with
  | none => loc
  | some m =>
    let m1 := effectiveMount s m
    ⟨m1, (s.mount m1).root⟩

/-- `Location::parent` (with fuel for the ascent through parent mounts):
inside a mount return the dentry parent; at a mount root ascend to the
mount's location in its parent mount and recurse. -/
def locationParentF : Nat → State → Location → Option Location
  | 0, _, _ => none
  | fuel + 1, s, loc =>
    if isRootOfMount s loc.entry = false then
      match (s.entry loc.entry).ref.parent with
      | some p => some ⟨loc.mount, p⟩
      | none => none
    else
      match (s.mount loc.mount).location with
      | none => none
      | some (pm, pe) => locationParentF fuel s ⟨pm, pe⟩

/-- `Location::parent`; mount identifiers strictly decrease along
`Mountpoint::location`, so `mounts.length + 1` steps of fuel suffice. -/
def locationParent (s : State) (loc : Location) : Option Location :=
  locationParentF (s.mounts.length + 1) s loc

/-- `Location::check_is_dir` (`entry.as_dir().map(|_| ())`). -/
def checkIsDir (s : State) (loc : Location) : Except VfsError Unit :=
  if (s.entry loc.entry).kind = .dir then .ok () else .error .ENOTDIR

/-- `Location::lookup_no_follow`: `.` is the location itself; `..` is the
parent (or the location itself at the namespace root); a normal name goes
through `DirNode::lookup` and then `resolve_mountpoint`. -/
def lookupNoFollow (s : State) (loc : Location) (name : String) :
    Except VfsError Location × State :=
  if name = "." then (.ok loc, s)
  else if name = ".." then (.ok ((locationParent s loc).getD loc), s)
  else if (s.entry loc.entry).kind = .file then (.error .ENOTDIR, s)
  else
    match dirLookup s loc.entry name with
    | (.error e, s1) => (.error e, s1)
    | (.ok e, s1) => (.ok (resolveMountpoint s1 ⟨loc.mount, e⟩), s1)

/-- Modelled from the spec: `Location::lookup` (its body is not among the
sources; `src/resolve.rs` calls it for every normal component).  Symlinks
are not auto-followed in this core, and §4.3/§4.4 specify the traversal of
a normal name as `DirNode` lookup plus mount crossing — the behaviour of
`lookup_no_follow`. -/
def locationLookup (s : State) (loc : Location) (name : String) :
    Except VfsError Location × State :=
  lookupNoFollow s loc name

/-- `Location::link`: reject cross-mountpoint links with `EXDEV`, then
forward to `DirNode::link` and wrap the result in this location's mount. -/
def locationLink (s : State) (loc : Location) (name : String) (node : Location) :
    Except VfsError Location × State :=
  if loc.mount ≠ node.mount then (.error .EXDEV, s)
  else if (s.entry loc.entry).kind = .file then (.error .ENOTDIR, s)
  else
    match dirLink s loc.entry name node.entry with
    | (.error e, s1) => (.error e, s1)
    | (.ok e, s1) => (.ok ⟨loc.mount, e⟩, s1)

/-- `Location::rename`: reject cross-mountpoint renames with `EXDEV`;
reject with `EINVAL` when the destination directory lies below the source
directory (`is_ancestor_of`, pointer-distinct); then forward to
`DirNode::rename`. -/
def locationRename (s : State) (loc : Location) (srcName : String)
    (dstDir : Location) (dstName : String) : Except VfsError Unit × State :=
  if loc.mount ≠ dstDir.mount then (.error .EXDEV, s)
  else if loc ≠ dstDir ∧ isAncestorOf s loc.entry dstDir.entry then
    (.error .EINVAL, s)
  else if (s.entry loc.entry).kind = .file then (.error .ENOTDIR, s)
  else if (s.entry dstDir.entry).kind = .file then (.error .ENOTDIR, s)
  else dirRename s loc.entry srcName dstDir.entry dstName

/-- `Location::absolute_path` (with fuel for the ascent through parent
mounts): gather names up to the current mount's root, then continue from
the mount's location in its parent, until the namespace root. -/
def absolutePathF : Nat → State → Location → List String → List String
  | 0, _, _, acc => acc
  | fuel + 1, s, loc, acc =>
    let acc1 := collectAbsF (s.entries.length + 1) s loc.entry acc
    match (s.mount loc.mount).location with
    | none => acc1
    | some (pm, pe) => absolutePathF fuel s ⟨pm, pe⟩ acc1

/-- `Location::absolute_path`: `"/"` followed by the collected names in
reverse.  The `PathBuf` built by the missing `path` module is modelled from
the spec: the absolute-path format is `"/" + "/".join(components)`, mount
roots contributing their mounting-directory's name — so the empty names of
mount roots vanish and the remaining names become normal components. -/
def absolutePath (s : State) (loc : Location) : Path :=
  let comps := absolutePathF (s.mounts.length + 1) s loc []
  Component.rootDir :: ((comps.reverse.filter (fun n => n ≠ "")).map Component.normal)

/-! ### Resolver (`src/resolve.rs`) -/

/-- `FsResolver`: the pinned root and the current directory. -/
structure FsResolver where
  root_dir : Location
  current_dir : Location
  deriving DecidableEq, Repr

/-- The component walk inside `FsResolver::resolve_inner`: `CurDir` is a
no-op; `ParentDir` is `dir.parent()` with the pinned root as fallback;
`RootDir` resets to the pinned root; a normal name goes through
`Location::lookup`. -/
def resolveComps (r : FsResolver) : List Component → State → Location →
    Except VfsError Location × State
  | [], s, dir => (.ok dir, s)
  | c :: rest, s, dir =>
    match c with
    | .curDir => resolveComps r rest s dir
    | .parentDir => resolveComps r rest s ((locationParent s dir).getD r.root_dir)
    | .rootDir => resolveComps r rest s r.root_dir
    | .normal n =>
      match locationLookup s dir n with
      | (.error e, s1) => (.error e, s1)
      | (.ok d1, s1) => resolveComps r rest s1 d1

/-- `FsResolver::resolve_inner`: split off the final name component when
present, walk the remaining components from `current_dir`, and require the
result to be a directory. -/
def resolveInner (s : State) (r : FsResolver) (p : Path) :
    Except VfsError (Location × Option String) × State :=
  let entryName := fileName p
  let comps := if entryName.isSome then p.dropLast else p
  match resolveComps r comps s r.current_dir with
  | (.error e, s1) => (.error e, s1)
  | (.ok dir, s1) =>
    match checkIsDir s1 dir with
    | .error e => (.error e, s1)
    | .ok _ => (.ok (dir, entryName), s1)

/-- `FsResolver::resolve`: `resolve_inner`, then look up the final name in
the resulting directory when present. -/
def resolve (s : State) (r : FsResolver) (p : Path) :
    Except VfsError Location × State :=
  match resolveInner s r p with
  | (.error e, s1) => (.error e, s1)
  | (.ok (dir, some name), s1) => locationLookup s1 dir name
  | (.ok (dir, none), s1) => (.ok dir, s1)

/-! ### Well-formedness

A Boolean checker for the heap invariants of §3 of the spec (reference
coherence of caches, strong parent links, acyclicity via strictly ordered
identifiers, mount-slot / mount-location coherence).  All theorems about
non-concrete states assume `wfB s = true`. -/

/-- The top of an entry's parent chain (with fuel; parent identifiers
strictly decrease in a well-formed heap, so `e + 1` steps suffice). -/
def topOfF : Nat → State → EntryId → EntryId
  | 0, _, e => e
  | fuel + 1, s, e =>
    match (s.entry e).ref.parent with
    | some p => topOfF fuel s p
    | none => e

/-- The mount-root dentry above an entry: the end of its parent chain. -/
def topOf (s : State) (e : EntryId) : EntryId :=
  topOfF (e + 1) s e

/-- Invariant checks for the entry at index `i`. -/
def entryOkB (s : State) (i : Nat) : Bool :=
  let e := s.entry i
  decide (e.inode < s.inodes.length) &&
  (e.kind == (s.inode e.inode).kind) &&
  ((e.kind == NodeKind.dir) == (e.node_type == NodeType.directory)) &&
  (match e.ref.parent with
   | some p => decide (p < i)
   | none => true) &&
  e.cache.all (fun pr =>
    decide (pr.2 < s.entries.length) && decide (i < pr.2) &&
    ((s.entry pr.2).ref == Reference.mk (some i) pr.1) &&
    (verifyEntryName pr.1 == Except.ok ())) &&
  decide (e.cache.map Prod.fst).Nodup &&
  (match e.kind with
   | .file => (e.cache == []) && (e.mnt == none)
   | .dir => true) &&
  (match e.mnt with
   | some m =>
     decide (m < s.mounts.length) &&
     (match (s.mount m).location with
      | some (pm, pe) =>
        (pe == i) && decide (pm < s.mounts.length) &&
        ((s.mount pm).root == topOf s i)
      | none => false)
   | none => true)

/-- Invariant checks for the inode at index `j`. -/
def inodeOkB (s : State) (j : Nat) : Bool :=
  let nd := s.inode j
  ((nd.kind == NodeKind.dir) == (nd.node_type == NodeType.directory)) &&
  (match nd.kind with
   | .file => nd.children == []
   | .dir => true) &&
  nd.children.all (fun pr =>
    decide (pr.2 < s.inodes.length) && (verifyEntryName pr.1 == Except.ok ()))

/-- Invariant checks for the mount at index `m`. -/
def mountOkB (s : State) (m : Nat) : Bool :=
  let mo := s.mount m
  decide (mo.root < s.entries.length) &&
  ((s.entry mo.root).ref == Reference.mk none "") &&
  ((s.entry mo.root).kind == NodeKind.dir) &&
  (match mo.location with
   | some (pm, pe) => decide (pm < m) && decide (pe < s.entries.length)
   | none => m == 0) &&
  (match (s.entry mo.root).mnt with
   | some m1 => decide (m < m1)
   | none => true)

/-- The full heap invariant. -/
def wfB (s : State) : Bool :=
  decide (0 < s.mounts.length) &&
  (List.range s.inodes.length).all (inodeOkB s) &&
  (List.range s.entries.length).all (entryOkB s) &&
  (List.range s.mounts.length).all (mountOkB s) &&
  (List.range s.mounts.length).all (fun m1 =>
    (List.range s.mounts.length).all (fun m2 =>
      ((s.mount m1).root != (s.mount m2).root) || (m1 == m2)))

/-- The namespace root as a `Location`: the root mount paired with its root
dentry. -/
def rootLoc (s : State) : Location :=
  ⟨0, (s.mount 0).root⟩

/-- A resolver whose pinned root and current directory are the namespace
root. -/
def rootResolver (s : State) : FsResolver :=
  ⟨rootLoc s, rootLoc s⟩

/-- One fully cached resolution step: a valid normal name found in the
(cacheable) directory's dentry cache, followed by mount crossing; such a
step leaves the heap untouched. -/
def CachedStep (s : State) (loc : Location) (n : String) (loc1 : Location) : Prop :=
  verifyEntryName n = .ok () ∧
  (s.entry loc.entry).kind = .dir ∧
  dirCacheable s loc.entry = true ∧
  ∃ c, assocGet (s.entry loc.entry).cache n = some c ∧
    loc1 = resolveMountpoint s ⟨loc.mount, c⟩

/-- Locations reachable from the namespace root by fully cached resolution
steps. -/
inductive Reachable (s : State) : Location → Prop where
  | root : Reachable s (rootLoc s)
  | step {loc n loc1} : Reachable s loc → CachedStep s loc n loc1 → Reachable s loc1

/-! ### Heap-access lemmas -/

theorem entry_setEntry_self {s : State} {i : EntryId} {e : EntryObj}
    (h : i < s.entries.length) : (s.setEntry i e).entry i = e := by
  simp [State.setEntry, State.entry, List.getD_eq_getElem?_getD, List.getElem?_set, h]

theorem entry_setEntry_other {s : State} {i : EntryId} {e : EntryObj} {j : EntryId}
    (h : j ≠ i) : (s.setEntry i e).entry j = s.entry j := by
  simp [State.setEntry, State.entry, List.getD_eq_getElem?_getD, List.getElem?_set,
    Ne.symm h]

theorem setEntry_inode {s : State} {i : EntryId} {e : EntryObj} (j : InodeId) :
    (s.setEntry i e).inode j = s.inode j := rfl

theorem setEntry_mount {s : State} {i : EntryId} {e : EntryObj} (m : MountId) :
    (s.setEntry i e).mount m = s.mount m := rfl

theorem setEntry_entries_length {s : State} {i : EntryId} {e : EntryObj} :
    (s.setEntry i e).entries.length = s.entries.length := by
  simp [State.setEntry]

theorem setInode_entry {s : State} {i : InodeId} {nd : Inode} (j : EntryId) :
    (s.setInode i nd).entry j = s.entry j := rfl

theorem setInode_entries_length {s : State} {i : InodeId} {nd : Inode} :
    (s.setInode i nd).entries.length = s.entries.length := rfl

theorem setInode_mount {s : State} {i : InodeId} {nd : Inode} (m : MountId) :
    (s.setInode i nd).mount m = s.mount m := rfl

theorem materialize_entry_lt {s : State} {p : EntryId} {n : String} {ino : InodeId}
    {j : EntryId} (h : j < s.entries.length) :
    (materialize s p n ino).2.entry j = s.entry j := by
  simp [materialize, State.entry, List.getD_eq_getElem?_getD, List.getElem?_append, h]

theorem materialize_entries_length {s : State} {p : EntryId} {n : String}
    {ino : InodeId} :
    (materialize s p n ino).2.entries.length = s.entries.length + 1 := by
  simp [materialize]

theorem materialize_inode {s : State} {p : EntryId} {n : String} {ino : InodeId}
    (j : InodeId) : (materialize s p n ino).2.inode j = s.inode j := rfl

theorem materialize_mount {s : State} {p : EntryId} {n : String} {ino : InodeId}
    (m : MountId) : (materialize s p n ino).2.mount m = s.mount m := rfl

theorem materialize_fst {s : State} {p : EntryId} {n : String} {ino : InodeId} :
    (materialize s p n ino).1 = s.entries.length := rfl

theorem materialize_entry_new {s : State} {p : EntryId} {n : String} {ino : InodeId} :
    (materialize s p n ino).2.entry s.entries.length =
      { inode := ino
        kind := (s.inode ino).kind
        node_type := if (s.inode ino).kind = .dir then .directory
          else (s.inode ino).node_type
        ref := ⟨some p, n⟩
        cache := []
        mnt := none } := by
  simp [materialize, State.entry, List.getD_eq_getElem?_getD, List.getElem?_append]

/-! ### Association-list lemmas -/

theorem assocGet_set_self {α : Type} (l : List (String × α)) (k : String) (v : α) :
    assocGet (assocSet l k v) k = some v := by
  induction l with
  | nil => simp [assocSet, assocGet]
  | cons hd tl ih =>
    by_cases h : hd.1 = k
    · simp [assocSet, assocGet, h]
    · simp [assocSet, assocGet, h, ih]

theorem assocGet_set_other {α : Type} (l : List (String × α)) (k : String) (v : α)
    (m : String) (h : m ≠ k) : assocGet (assocSet l k v) m = assocGet l m := by
  induction l with
  | nil => simp [assocSet, assocGet, Ne.symm h]
  | cons hd tl ih =>
    by_cases h1 : hd.1 = k
    · subst h1
      simp [assocSet, assocGet, Ne.symm h]
    · simp only [assocSet, if_neg h1, assocGet]
      by_cases h2 : hd.1 = m
      · simp [h2]
      · simp [h2, ih]

theorem assocGet_eq_none_of_not_mem {α : Type} (l : List (String × α)) (k : String)
    (h : k ∉ l.map Prod.fst) : assocGet l k = none := by
  induction l with
  | nil => rfl
  | cons hd tl ih =>
    simp only [List.map_cons, List.mem_cons, not_or] at h
    simp only [assocGet, if_neg (Ne.symm h.1)]
    exact ih h.2

theorem assocGet_remove_self {α : Type} (l : List (String × α)) (k : String)
    (hnd : (l.map Prod.fst).Nodup) : assocGet (assocRemove l k) k = none := by
  induction l with
  | nil => rfl
  | cons hd tl ih =>
    simp only [List.map_cons, List.nodup_cons] at hnd
    by_cases h : hd.1 = k
    · simp only [assocRemove, if_pos h]
      exact assocGet_eq_none_of_not_mem tl k (h ▸ hnd.1)
    · simp only [assocRemove, if_neg h, assocGet, if_neg h]
      exact ih hnd.2

theorem assocGet_remove_other {α : Type} (l : List (String × α)) (k : String)
    (m : String) (h : m ≠ k) : assocGet (assocRemove l k) m = assocGet l m := by
  induction l with
  | nil => simp [assocRemove]
  | cons hd tl ih =>
    by_cases h1 : hd.1 = k
    · subst h1
      simp [assocRemove, assocGet, Ne.symm h]
    · simp only [assocRemove, if_neg h1, assocGet]
      by_cases h2 : hd.1 = m
      · simp [h2]
      · simp [h2, ih]

/-! ## Claims -/

/-! ### C8 — `NodeType` numeric encoding -/

/-- C8.  The numeric `NodeType` encoding mirrors POSIX `DT_*`: for every
byte `v`, the strict decoder (`TryFrom<u8>`) accepts `v` yielding `t`
exactly when `v` is `t`'s octal discriminant (1, 2, 4, 6, 0o10, 0o12,
0o14), and rejects every other value, `0` included.  (The source
enumeration has no `Unknown` sentinel; the decoder is strict, which the
claim admits.) -/
theorem c8_nodetype_encoding :
    ∀ v : Fin 256,
      (∀ t : NodeType, (NodeType.tryFrom v.val = some t ↔ v.val = t.toU8)) ∧
      ((∀ t : NodeType, v.val ≠ t.toU8) → NodeType.tryFrom v.val = none) := by
  decide

/-- C8, witness: the theorem instantiated at the byte 0, which no variant
encodes, so the strict decoder rejects it. -/
theorem c8_nodetype_encoding_witness : NodeType.tryFrom 0 = none :=
  (c8_nodetype_encoding 0).2 (by decide)

/-! ### C7 — `Location::metadata` device substitution -/

/-- A concrete backend metadata record whose `node_type` disagrees with the
dentry's declared type (a symlink dentry whose backend reports the file's
raw type). -/
def exampleMeta : Metadata :=
  { device := 5, inode := 7, nlink := 1, mode := 0o644,
    node_type := .regularFile, uid := 1, gid := 2, size := 3,
    block_size := 512, blocks := 1, atime := 10, mtime := 11, ctime := 12 }

/-- C7, counterexample.  `Location::metadata` does not return the backend's
`node_type`: `DirEntry::metadata` overwrites it with the dentry's declared
type.  Here the backend reports `RegularFile` but the dentry is declared
`Symlink`, and the returned `node_type` is `Symlink`. -/
theorem c7_metadata_counterexample :
    locationMetadata 9 .symlink (Except.ok exampleMeta) =
      Except.ok { exampleMeta with device := 9, node_type := NodeType.symlink } ∧
    NodeType.symlink ≠ exampleMeta.node_type := by
  exact ⟨rfl, by decide⟩

/-- C7, amended.  `Location::metadata` returns the backend's metadata with
`device` replaced by the owning mountpoint's device id and `node_type`
replaced by the dentry's declared type; every other field (inode, nlink,
mode, uid, gid, size, block_size, blocks, atime, mtime, ctime) is exactly
the backend's. -/
theorem c7_metadata_device_substitution (dev : Nat) (declared : NodeType)
    (m : Metadata) :
    ∃ m1, locationMetadata dev declared (Except.ok m) = Except.ok m1 ∧
      m1.device = dev ∧ m1.node_type = declared ∧
      m1.inode = m.inode ∧ m1.nlink = m.nlink ∧ m1.mode = m.mode ∧
      m1.uid = m.uid ∧ m1.gid = m.gid ∧ m1.size = m.size ∧
      m1.block_size = m.block_size ∧ m1.blocks = m.blocks ∧
      m1.atime = m.atime ∧ m1.mtime = m.mtime ∧ m1.ctime = m.ctime := by
  exact ⟨_, rfl, rfl, rfl, rfl, rfl, rfl, rfl, rfl, rfl, rfl, rfl, rfl, rfl, rfl⟩

/-! ### C10 — `DirEntry::read_link` -/

/-- C10.  `read_link` returns `EINVAL` for every entry whose declared
`node_type` is not `Symlink`, whatever the node is (the backend is never
consulted); for a symlink backed by a file whose `len()` is `n` and whose
`read_at` fills the `n`-byte zero buffer with `bytes`, it returns `EINVAL`
when the buffer is not valid UTF-8 and otherwise the target string — the
full buffer — whose byte length is `len()`. -/
theorem c10_read_link (e : LinkEntry) (fb : FileBackend) (n : Nat)
    (bytes : List Nat) :
    (e.node_type ≠ .symlink → readLink e = .error .EINVAL) ∧
    (fb.len = .ok n → fb.readAt n = .ok bytes → bytes.length ≤ n →
      (utf8Valid (bytes ++ List.replicate (n - bytes.length) 0) = false →
        readLink ⟨.symlink, .file fb⟩ = .error .EINVAL) ∧
      (utf8Valid (bytes ++ List.replicate (n - bytes.length) 0) = true →
        readLink ⟨.symlink, .file fb⟩ =
          .ok (bytes ++ List.replicate (n - bytes.length) 0) ∧
        (bytes ++ List.replicate (n - bytes.length) 0).length = n)) := by
  constructor
  · intro h
    simp only [readLink, if_pos h]
  · intro hlen hread hle
    have htake : bytes.take n = bytes := List.take_of_length_le hle
    have hbuf :
        readLink ⟨.symlink, .file fb⟩ =
          (if utf8Valid (bytes ++ List.replicate (n - bytes.length) 0) then
            Except.ok (bytes ++ List.replicate (n - bytes.length) 0)
          else .error .EINVAL) := by
      simp only [readLink, ne_eq, not_true_eq_false, ite_false, hlen, hread, htake]
    constructor
    · intro hv
      rw [hbuf, hv]
      rfl
    · intro hv
      rw [hbuf, hv]
      refine ⟨rfl, ?_⟩
      simp [List.length_append, List.length_replicate]
      omega

/-- C10, witness: a directory entry is rejected with `EINVAL`; a symlink
whose 2-byte target reads back `0xFF` (invalid UTF-8 with the zero padding)
yields `EINVAL`; a symlink whose target reads back `h` (valid UTF-8 with
the zero padding) yields the 2-byte buffer. -/
theorem c10_read_link_witness :
    readLink ⟨.directory, .dir⟩ = .error .EINVAL ∧
    readLink ⟨.symlink, .file ⟨.ok 2, fun _ => .ok [0xff]⟩⟩ = .error .EINVAL ∧
    (readLink ⟨.symlink, .file ⟨.ok 2, fun _ => .ok [104]⟩⟩ = .ok [104, 0] ∧
      ([104] ++ List.replicate (2 - [104].length) 0).length = 2) := by
  refine ⟨(c10_read_link ⟨.directory, .dir⟩ ⟨.ok 0, fun _ => .ok []⟩ 0 []).1 (by decide),
    ?_, ?_⟩
  · exact (c10_read_link ⟨.symlink, .file ⟨.ok 2, fun _ => .ok [0xff]⟩⟩
      ⟨.ok 2, fun _ => .ok [0xff]⟩ 2 [0xff]).2 rfl rfl (by decide) |>.1 (by decide)
  · have h := (c10_read_link ⟨.symlink, .file ⟨.ok 2, fun _ => .ok [104]⟩⟩
      ⟨.ok 2, fun _ => .ok [104]⟩ 2 [104]).2 rfl rfl (by decide) |>.2 (by decide)
    exact h

/-! ### Concrete example heaps -/

/-- A single-mount heap:
`/` contains directory `a` (with file `b` inside), empty directory `d`,
file `x`, and an empty directory `u` that is present in the backend but not
yet in the dentry cache.  Entries: 0 = `/`, 1 = `a`, 2 = `d`, 3 = `x`,
4 = `a/b`. -/
def S1 : State :=
  { inodes :=
      [ { kind := .dir, node_type := .directory, cacheable := true,
          children := [("a", 1), ("d", 2), ("x", 4), ("u", 5)],
          mode := 0o755, uid := 0, gid := 0 }
      , { kind := .dir, node_type := .directory, cacheable := true,
          children := [("b", 3)], mode := 0o755, uid := 0, gid := 0 }
      , { kind := .dir, node_type := .directory, cacheable := true,
          children := [], mode := 0o755, uid := 0, gid := 0 }
      , { kind := .file, node_type := .regularFile, cacheable := true,
          children := [], mode := 0o644, uid := 0, gid := 0 }
      , { kind := .file, node_type := .regularFile, cacheable := true,
          children := [], mode := 0o644, uid := 0, gid := 0 }
      , { kind := .dir, node_type := .directory, cacheable := true,
          children := [], mode := 0o755, uid := 0, gid := 0 } ]
    entries :=
      [ { inode := 0, kind := .dir, node_type := .directory,
          ref := ⟨none, ""⟩, cache := [("a", 1), ("d", 2), ("x", 3)], mnt := none }
      , { inode := 1, kind := .dir, node_type := .directory,
          ref := ⟨some 0, "a"⟩, cache := [("b", 4)], mnt := none }
      , { inode := 2, kind := .dir, node_type := .directory,
          ref := ⟨some 0, "d"⟩, cache := [], mnt := none }
      , { inode := 4, kind := .file, node_type := .regularFile,
          ref := ⟨some 0, "x"⟩, cache := [], mnt := none }
      , { inode := 3, kind := .file, node_type := .regularFile,
          ref := ⟨some 1, "b"⟩, cache := [], mnt := none } ]
    mounts := [ { root := 0, location := none, device := 1 } ] }

/-- A heap with a non-cacheable directory: `/p` opts out of caching
(`is_cacheable = false`) and its backend holds a file `x`.  Entries:
0 = `/`, 1 = `p`. -/
def S3 : State :=
  { inodes :=
      [ { kind := .dir, node_type := .directory, cacheable := true,
          children := [("p", 1)], mode := 0o755, uid := 0, gid := 0 }
      , { kind := .dir, node_type := .directory, cacheable := false,
          children := [("x", 2)], mode := 0o755, uid := 0, gid := 0 }
      , { kind := .file, node_type := .regularFile, cacheable := false,
          children := [], mode := 0o644, uid := 0, gid := 0 } ]
    entries :=
      [ { inode := 0, kind := .dir, node_type := .directory,
          ref := ⟨none, ""⟩, cache := [("p", 1)], mnt := none }
      , { inode := 1, kind := .dir, node_type := .directory,
          ref := ⟨some 0, "p"⟩, cache := [], mnt := none } ]
    mounts := [ { root := 0, location := none, device := 1 } ] }

/-- A two-mount heap: a filesystem is mounted on `/mnt`; its root contains
file `f`.  Entries: 0 = `/`, 1 = `mnt` (mount slot occupied by mount 1),
2 = the mounted filesystem's root, 3 = `f`. -/
def S4 : State :=
  { inodes :=
      [ { kind := .dir, node_type := .directory, cacheable := true,
          children := [("mnt", 1)], mode := 0o755, uid := 0, gid := 0 }
      , { kind := .dir, node_type := .directory, cacheable := true,
          children := [], mode := 0o755, uid := 0, gid := 0 }
      , { kind := .dir, node_type := .directory, cacheable := true,
          children := [("f", 3)], mode := 0o755, uid := 0, gid := 0 }
      , { kind := .file, node_type := .regularFile, cacheable := true,
          children := [], mode := 0o644, uid := 0, gid := 0 } ]
    entries :=
      [ { inode := 0, kind := .dir, node_type := .directory,
          ref := ⟨none, ""⟩, cache := [("mnt", 1)], mnt := none }
      , { inode := 1, kind := .dir, node_type := .directory,
          ref := ⟨some 0, "mnt"⟩, cache := [], mnt := some 1 }
      , { inode := 2, kind := .dir, node_type := .directory,
          ref := ⟨none, ""⟩, cache := [("f", 3)], mnt := none }
      , { inode := 3, kind := .file, node_type := .regularFile,
          ref := ⟨some 2, "f"⟩, cache := [], mnt := none } ]
    mounts :=
      [ { root := 0, location := none, device := 1 }
      , { root := 2, location := some (0, 1), device := 2 } ] }

/-- The example heaps satisfy the heap invariant. -/
theorem example_heaps_wf : wfB S1 = true ∧ wfB S3 = true ∧ wfB S4 = true := by
  decide

/-! ### C1 — `..` at the pinned resolver root -/

/-- C1.  The claim (and the spec) say a `ParentDir` component at the pinned
`root_dir` is a no-op, so `resolve("..")` equals `resolve("/")` for a root
pinned at any directory `L` of the namespace.  The code only falls back to
`root_dir` when `Location::parent()` returns `None`, which happens at the
namespace root alone: pinning the resolver at `/a` (entry 1, reachable from
the namespace root) and resolving `..` yields the namespace root `/`
(entry 0) — outside the pinned subtree — while resolving `/` yields `/a`.
This evaluates the embedded code at the failing input. -/
theorem c1_dotdot_escapes_pinned_root :
    wfB S1 = true ∧
    Reachable S1 ⟨0, 1⟩ ∧
    (resolve S1 ⟨⟨0, 1⟩, ⟨0, 1⟩⟩ [Component.parentDir]).1 = .ok ⟨0, 0⟩ ∧
    (resolve S1 ⟨⟨0, 1⟩, ⟨0, 1⟩⟩ [Component.rootDir]).1 = .ok ⟨0, 1⟩ ∧
    (Location.mk 0 0) ≠ (Location.mk 0 1) := by
  refine ⟨by decide, ?_, by decide, by decide, by decide⟩
  exact Reachable.step (Reachable.root)
    (show CachedStep S1 (rootLoc S1) "a" ⟨0, 1⟩ from
      ⟨by decide, by decide, by decide, 1, by decide, by decide⟩)

/-! ### C2 — same-name rename in the same directory (counterexample) -/

/-- C2, counterexample.  `rename(a, d, a)` on the same directory is not a
no-op when `a` names a non-empty directory: the VFS pre-check sees the
destination (the same entry) as a non-empty directory and fails with
`ENOTEMPTY` before consulting the backend — although the backend itself
would accept the identical-source-and-destination rename as a no-op. -/
theorem c2_rename_same_name_counterexample :
    (dirRename S1 0 "a" 0 "a").1 = .error .ENOTEMPTY ∧
    (backendRename S1 0 "a" 0 "a").1 = .ok () ∧
    wfB S1 = true := by
  decide

/-! ### C4 — cache state after a failed mutation (counterexample) -/

/-- C4, counterexample.  A failed `unlink` does not always leave the child
cache identical: `unlink("u", is_dir = false)` on `/`, where `u` is an
uncached backend directory, memoizes `u` into the cache during the
existence lookup and then fails with `EISDIR`, so the cache differs from
its state before the call. -/
theorem c4_unlink_error_cache_counterexample :
    (dirUnlink S1 0 "u" false).1 = .error .EISDIR ∧
    ((dirUnlink S1 0 "u" false).2.entry 0).cache ≠ (S1.entry 0).cache ∧
    wfB S1 = true := by
  decide

/-! ### C5 — cross-mount and ancestor checks in `link` / `rename`
(counterexample) -/

/-- C5, counterexample.  `Location::rename` tests whether the *source
directory* is an ancestor of the destination directory, not whether the
moved entry is: renaming the regular file `/x` into `/a/y` — which moves
no directory into its own descendant — is rejected with `EINVAL`. -/
theorem c5_rename_einval_counterexample :
    (locationRename S1 ⟨0, 0⟩ "x" ⟨0, 1⟩ "y").1 = .error .EINVAL ∧
    assocGet (S1.entry 0).cache "x" = some 3 ∧
    (S1.entry 3).node_type = .regularFile ∧
    isAncestorOf S1 3 1 = false ∧
    wfB S1 = true := by
  decide

/-! ### C3 — `absolute_path` / `resolve` round-trip (counterexample) -/

/-- C3, counterexample.  The round-trip fails through a non-cacheable
directory: resolving `/p/x` in `S3` materialises a fresh dentry (entry 2)
for `x`; its absolute path is again `/p/x`, but resolving that path
materialises another fresh dentry (entry 3), so the returned `Location` is
not pointer-equal to the original. -/
theorem c3_roundtrip_counterexample :
    (resolve S3 (rootResolver S3)
        [Component.rootDir, Component.normal "p", Component.normal "x"]).1 =
      .ok ⟨0, 2⟩ ∧
    (absolutePath
        (resolve S3 (rootResolver S3)
          [Component.rootDir, Component.normal "p", Component.normal "x"]).2
        ⟨0, 2⟩) =
      [Component.rootDir, Component.normal "p", Component.normal "x"] ∧
    (resolve
        (resolve S3 (rootResolver S3)
          [Component.rootDir, Component.normal "p", Component.normal "x"]).2
        (rootResolver S3)
        [Component.rootDir, Component.normal "p", Component.normal "x"]).1 =
      .ok ⟨0, 3⟩ ∧
    (Location.mk 0 3) ≠ (Location.mk 0 2) ∧
    wfB S3 = true := by
  decide

/-! ### C9 — `DirNode::open_file` -/

/-- C9.  `open_file(name, options)`: when `name` resolves to an existing
entry (first conjunct — quantified over any entry, directories included:
no type check is performed), that entry is returned as-is unless
`create_new` is set, in which case `EEXIST`; when `name` exists in neither
the cache nor the backend and `create` is unset (second conjunct), `ENOENT`
is returned with the heap untouched — so nothing is created — whatever the
value of `create_new`. -/
theorem c9_open_file (s : State) (d : EntryId) (name : String)
    (opts : OpenOptions) (hv : verifyEntryName name = .ok ()) :
    (∀ val s1, lookupLocked s d name = (.ok val, s1) →
      openFile s d name opts =
        (if opts.create_new then (.error .EEXIST, s1) else (.ok val, s1))) ∧
    (assocGet (s.entry d).cache name = none →
      assocGet (s.inode (s.entry d).inode).children name = none →
      opts.create = false →
      openFile s d name opts = (.error .ENOENT, s)) := by
  constructor
  · intro val s1 h
    simp only [openFile, hv, h]
  · intro hc hb hcr
    have hl : lookupLocked s d name = (.error .ENOENT, s) := by
      simp only [lookupLocked, hc, backendLookup, hb]
    simp only [openFile, hv, hl, hcr]
    simp

/-- C9, witness: in `S1`, opening the existing directory `a` with
`create_new` fails with `EEXIST`; opening it with default options returns
the cached directory entry itself; opening the absent `zz` without `create`
fails with `ENOENT` and leaves the heap untouched even though `create_new`
is set. -/
theorem c9_open_file_witness :
    openFile S1 0 "a" { create_new := true } = (.error .EEXIST, S1) ∧
    openFile S1 0 "a" {} = (.ok 1, S1) ∧
    openFile S1 0 "zz" { create_new := true } = (.error .ENOENT, S1) := by
  refine ⟨?_, ?_, ?_⟩
  · exact (c9_open_file S1 0 "a" { create_new := true } (by decide)).1 1 S1 (by decide)
  · exact (c9_open_file S1 0 "a" {} (by decide)).1 1 S1 (by decide)
  · exact (c9_open_file S1 0 "zz" { create_new := true } (by decide)).2
      (by decide) (by decide) rfl

/-! ### C4 — error atomicity of `create` / `unlink` (amended) -/

theorem entry_out_of_range {s : State} {d : EntryId}
    (h : s.entries.length ≤ d) : s.entry d = default := by
  show s.entries.getD d default = default
  exact List.getD_eq_default _ _ h

theorem materialize_cache_d (s : State) (p : EntryId) (n : String)
    (ino : InodeId) (d : EntryId) :
    ((materialize s p n ino).2.entry d).cache = (s.entry d).cache := by
  rcases Nat.lt_or_ge d s.entries.length with h | h
  · rw [materialize_entry_lt h]
  · rcases Nat.eq_or_lt_of_le h with he | hlt
    · subst he
      rw [materialize_entry_new, entry_out_of_range (le_refl _)]
      rfl
    · have h1 : (materialize s p n ino).2.entries.length ≤ d := by
        rw [materialize_entries_length]
        omega
      rw [entry_out_of_range h1, entry_out_of_range h]

theorem setEntry_cache_d_oor {s : State} {d : EntryId} {e : EntryObj}
    (h : s.entries.length ≤ d) : s.setEntry d e = s := by
  simp [State.setEntry, List.set_eq_of_length_le h]

/-- The cache of `d` after `lookup_locked(d, name)`: unchanged, or (on a
memoized backend hit) the old cache with a binding for `name` added. -/
theorem lookupLocked_cache_d (s : State) (d : EntryId) (name : String) :
    (((lookupLocked s d name).2.entry d).cache = (s.entry d).cache) ∨
    (assocGet (s.entry d).cache name = none ∧
      ∃ c, ((lookupLocked s d name).2.entry d).cache =
        assocSet (s.entry d).cache name c) := by
  cases hc : assocGet (s.entry d).cache name with
  | some c =>
    have heq : lookupLocked s d name = (.ok c, s) := by
      simp only [lookupLocked, hc]
    rw [heq]
    exact Or.inl rfl
  | none =>
    cases hb : assocGet (s.inode (s.entry d).inode).children name with
    | none =>
      have heq : lookupLocked s d name = (.error .ENOENT, s) := by
        simp only [lookupLocked, hc, backendLookup, hb]
      rw [heq]
      exact Or.inl rfl
    | some ino =>
      have hbl : backendLookup s d name =
          (.ok (materialize s d name ino).1, (materialize s d name ino).2) := by
        simp only [backendLookup, hb]
      by_cases hca : dirCacheable (materialize s d name ino).2 d
      · have heq : (lookupLocked s d name).2 =
            (materialize s d name ino).2.setEntry d
              { (materialize s d name ino).2.entry d with
                cache := assocSet ((materialize s d name ino).2.entry d).cache name
                  (materialize s d name ino).1 } := by
          simp only [lookupLocked, hc, hbl, hca, if_true]
        rw [heq]
        rcases Nat.lt_or_ge d (materialize s d name ino).2.entries.length with h | h
        · right
          refine ⟨rfl, (materialize s d name ino).1, ?_⟩
          rw [entry_setEntry_self h, materialize_cache_d]
        · left
          rw [setEntry_cache_d_oor h, materialize_cache_d]
      · have heq : (lookupLocked s d name).2 = (materialize s d name ino).2 := by
          simp only [lookupLocked, hc, hbl, hca]
          simp
        rw [heq]
        exact Or.inl (materialize_cache_d s d name ino d)

theorem backendUnlink_entry (s : State) (d : EntryId) (name : String)
    (j : EntryId) : ((backendUnlink s d name).2.entry j) = s.entry j := by
  cases hb : assocGet (s.inode (s.entry d).inode).children name with
  | none => simp only [backendUnlink, hb]
  | some ino =>
    by_cases h : (s.inode ino).kind = NodeKind.dir ∧ (s.inode ino).children ≠ []
    · simp only [backendUnlink, hb, if_pos h]
    · simp only [backendUnlink, hb, if_neg h, setInode_entry]

/-- C4, amended.  A failed `create` leaves the whole heap — in particular
`d`'s child cache — exactly as before the call.  A failed `unlink` never
removes or replaces a cache binding: every binding for a name other than
`n` is unchanged, and the binding for `n` is either unchanged or (when `n`
was uncached and the existence lookup memoized a backend hit before the
failure) newly present; no destructive cache change happens before the
backend mutation succeeds. -/
theorem c4_error_atomicity (s : State) (d : EntryId) (name : String)
    (t : NodeType) (perm : Nat) (isDir : Bool) :
    (∀ e, (dirCreate s d name t perm).1 = .error e →
      (dirCreate s d name t perm).2 = s) ∧
    (∀ e, (dirUnlink s d name isDir).1 = .error e →
      (∀ m, m ≠ name →
        assocGet ((dirUnlink s d name isDir).2.entry d).cache m =
          assocGet (s.entry d).cache m) ∧
      (assocGet ((dirUnlink s d name isDir).2.entry d).cache name =
          assocGet (s.entry d).cache name ∨
        (assocGet (s.entry d).cache name = none ∧
          ∃ c, assocGet ((dirUnlink s d name isDir).2.entry d).cache name =
            some c))) := by
  constructor
  · intro e h
    unfold dirCreate at h ⊢
    cases hv : verifyEntryName name with
    | error e2 => simp [hv]
    | ok u =>
      cases u
      simp only [hv] at h ⊢
      unfold createLocked at h ⊢
      unfold backendCreate at h ⊢
      by_cases hex : (assocGet (s.inode (s.entry d).inode).children name).isSome
      · simp [hex]
      · simp [hex] at h
  · intro e h
    have hgen :
        ((dirUnlink s d name isDir).2.entry d).cache = (s.entry d).cache ∨
        (assocGet (s.entry d).cache name = none ∧
          ∃ c, ((dirUnlink s d name isDir).2.entry d).cache =
            assocSet (s.entry d).cache name c) := by
      unfold dirUnlink at h ⊢
      cases hv : verifyEntryName name with
      | error e2 =>
        simp only [hv]
        exact Or.inl (by trivial)
      | ok u =>
        cases u
        simp only [hv] at h ⊢
        cases hl : lookupLocked s d name with
        | mk r s1 =>
          cases r with
          | error e2 =>
            simp only [hl]
            have := lookupLocked_cache_d s d name
            rw [hl] at this
            exact this
          | ok c =>
            simp only [hl] at h ⊢
            by_cases h1 : (s1.entry c).kind = NodeKind.dir ∧ isDir = false
            · simp only [if_pos h1]
              have := lookupLocked_cache_d s d name
              rw [hl] at this
              exact this
            · simp only [if_neg h1] at h ⊢
              by_cases h2 : (s1.entry c).kind = NodeKind.file ∧ isDir = true
              · simp only [if_pos h2]
                have := lookupLocked_cache_d s d name
                rw [hl] at this
                exact this
              · simp only [if_neg h2] at h ⊢
                cases hbu : backendUnlink s1 d name with
                | mk r2 s2 =>
                  cases r2 with
                  | error e3 =>
                    simp only [hbu]
                    have hb := backendUnlink_entry s1 d name d
                    rw [hbu] at hb
                    rw [hb]
                    have := lookupLocked_cache_d s d name
                    rw [hl] at this
                    exact this
                  | ok u2 =>
                    simp only [hbu] at h
                    exact absurd h (by simp)
    rcases hgen with hsame | ⟨hnone, c, hset⟩
    · rw [hsame]
      exact ⟨fun m _ => rfl, Or.inl rfl⟩
    · rw [hset]
      refine ⟨fun m hm => assocGet_set_other _ _ _ _ hm, ?_⟩
      right
      exact ⟨hnone, c, assocGet_set_self _ _ _⟩

/-- C4, witness: in `S1`, creating the already existing `a` fails with
`EEXIST` and the heap is exactly `S1` again; unlinking the cached file `x`
with `is_dir = true` fails with `ENOTDIR` and every cache binding of `/`
is untouched. -/
theorem c4_error_atomicity_witness :
    (dirCreate S1 0 "a" .directory 0o755).1 = .error .EEXIST ∧
    (dirCreate S1 0 "a" .directory 0o755).2 = S1 ∧
    (dirUnlink S1 0 "x" true).1 = .error .ENOTDIR ∧
    assocGet ((dirUnlink S1 0 "x" true).2.entry 0).cache "a" =
      assocGet (S1.entry 0).cache "a" := by
  refine ⟨by decide, ?_, by decide, ?_⟩
  · exact (c4_error_atomicity S1 0 "a" .directory 0o755 true).1 .EEXIST (by decide)
  · exact ((c4_error_atomicity S1 0 "x" .directory 0o755 true).2 .ENOTDIR
      (by decide)).1 "a" (by decide)

/-! ### Extraction of heap invariants from `wfB` -/

/-- Parent identifiers strictly decrease (acyclicity of the parent walk). -/
def ParentDec (s : State) : Prop :=
  ∀ i p, (s.entry i).ref.parent = some p → p < i

theorem wfB_entryOk {s : State} (h : wfB s = true) {i : EntryId}
    (hi : i < s.entries.length) : entryOkB s i = true := by
  simp only [wfB, Bool.and_eq_true, List.all_eq_true, List.mem_range] at h
  exact h.1.1.2 i hi

theorem wf_parentDec {s : State} (h : wfB s = true) : ParentDec s := by
  intro i p hp
  rcases Nat.lt_or_ge i s.entries.length with hi | hi
  · have he := wfB_entryOk h hi
    simp only [entryOkB, Bool.and_eq_true] at he
    have := he.1.1.1.1.2
    rw [hp] at this
    exact of_decide_eq_true this
  · rw [entry_out_of_range hi] at hp
    exact absurd hp (by simp [default])

/-! ### C5 — cross-mount `EXDEV` and the rename ancestor guard (amended) -/

/-- The semantic ancestor-or-equal relation of the dentry graph: `a` lies on
`b`'s parent chain. -/
inductive Ancestor (s : State) : EntryId → EntryId → Prop where
  | refl (e : EntryId) : Ancestor s e e
  | step {a b p : EntryId} : (s.entry b).ref.parent = some p → Ancestor s a p →
      Ancestor s a b

theorem ancestor_of_isAncestorOfF {s : State} {a : EntryId} :
    ∀ fuel cur, isAncestorOfF fuel s a cur = true → Ancestor s a cur := by
  intro fuel
  induction fuel with
  | zero =>
    intro cur h
    simp only [isAncestorOfF] at h
    rw [of_decide_eq_true h]
    exact Ancestor.refl cur
  | succ n ih =>
    intro cur h
    simp only [isAncestorOfF] at h
    by_cases he : cur = a
    · rw [he]
      exact Ancestor.refl a
    · rw [if_neg he] at h
      cases hp : (s.entry cur).ref.parent with
      | none => rw [hp] at h; exact absurd h (by simp)
      | some p =>
        rw [hp] at h
        exact Ancestor.step hp (ih p h)

theorem isAncestorOfF_of_ancestor {s : State} {a : EntryId} (hpd : ParentDec s) :
    ∀ fuel cur, Ancestor s a cur → cur < fuel →
      isAncestorOfF fuel s a cur = true := by
  intro fuel
  induction fuel with
  | zero =>
    intro cur _ hlt
    exact absurd hlt (Nat.not_lt_zero cur)
  | succ n ih =>
    intro cur hanc hlt
    simp only [isAncestorOfF]
    by_cases he : cur = a
    · simp [he]
    · rw [if_neg he]
      cases hanc with
      | refl => exact absurd rfl he
      | step hp hanc2 =>
        rw [hp]
        exact ih _ hanc2 (Nat.lt_of_lt_of_le (hpd _ _ hp) (Nat.lt_succ_iff.mp hlt))

/-- `DirEntry::is_ancestor_of` computes exactly the semantic ancestor
relation (in a well-formed heap). -/
theorem isAncestorOf_iff {s : State} {a b : EntryId} (hpd : ParentDec s)
    (hb : b < s.entries.length) :
    isAncestorOf s a b = true ↔ Ancestor s a b := by
  constructor
  · exact ancestor_of_isAncestorOfF _ b
  · intro h
    show isAncestorOfF (s.entries.length + 1) s a b = true
    exact isAncestorOfF_of_ancestor hpd (s.entries.length + 1) b h
      (Nat.lt_succ_of_lt hb)

/-- C5, amended.  `link` rejects a target on another mount with `EXDEV`
(and touches nothing); `rename` rejects a destination directory on another
mount with `EXDEV`.  Within one mount, the `EINVAL` guard fires exactly
when the source *directory* location is distinct from the destination and
the source directory's entry is a (semantic) ancestor of the destination
directory's entry — a superset of "moving a directory into its own
descendant" — and otherwise the call forwards to `DirNode::rename` behind
the two `as_dir` checks. -/
theorem c5_exdev_and_ancestor_guard (s : State) (loc dstDir : Location)
    (srcN dstN : String) (hwf : wfB s = true)
    (hd : dstDir.entry < s.entries.length) :
    (∀ name node, node.mount ≠ loc.mount →
      locationLink s loc name node = (.error .EXDEV, s)) ∧
    (dstDir.mount ≠ loc.mount →
      locationRename s loc srcN dstDir dstN = (.error .EXDEV, s)) ∧
    (dstDir.mount = loc.mount → loc ≠ dstDir →
      Ancestor s loc.entry dstDir.entry →
      locationRename s loc srcN dstDir dstN = (.error .EINVAL, s)) ∧
    (dstDir.mount = loc.mount → (loc = dstDir ∨ ¬ Ancestor s loc.entry dstDir.entry) →
      locationRename s loc srcN dstDir dstN =
        (if (s.entry loc.entry).kind = .file then (.error .ENOTDIR, s)
         else if (s.entry dstDir.entry).kind = .file then (.error .ENOTDIR, s)
         else dirRename s loc.entry srcN dstDir.entry dstN)) := by
  refine ⟨?_, ?_, ?_, ?_⟩
  · intro name node hne
    simp only [locationLink, if_pos (Ne.symm hne)]
  · intro hne
    simp only [locationRename, if_pos (Ne.symm hne)]
  · intro heq hne hanc
    have hguard : loc ≠ dstDir ∧ isAncestorOf s loc.entry dstDir.entry = true :=
      ⟨hne, (isAncestorOf_iff (wf_parentDec hwf) hd).mpr hanc⟩
    have hmne : ¬(loc.mount ≠ dstDir.mount) := fun hcon => hcon heq.symm
    simp only [locationRename, if_neg hmne, if_pos hguard]
  · intro heq hno
    have hguard : ¬(loc ≠ dstDir ∧ isAncestorOf s loc.entry dstDir.entry = true) := by
      rcases hno with h1 | h2
      · intro hcon
        exact hcon.1 h1
      · intro hcon
        exact h2 ((isAncestorOf_iff (wf_parentDec hwf) hd).mp hcon.2)
    have hmne : ¬(loc.mount ≠ dstDir.mount) := fun hcon => hcon heq.symm
    simp only [locationRename, if_neg hmne, if_neg hguard]

/-- C5, witness.  Across the two mounts of `S4`, `link` and `rename` from
`/` into the mounted filesystem's root fail with `EXDEV`.  Inside the
single mount of `S1`, renaming out of `/` into its descendant `/a` fails
with `EINVAL` (the guard), and a same-directory rename forwards to
`DirNode::rename`. -/
theorem c5_exdev_and_ancestor_guard_witness :
    locationLink S4 ⟨0, 0⟩ "n" ⟨1, 2⟩ = (.error .EXDEV, S4) ∧
    locationRename S4 ⟨0, 0⟩ "mnt" ⟨1, 2⟩ "y" = (.error .EXDEV, S4) ∧
    locationRename S1 ⟨0, 0⟩ "x" ⟨0, 1⟩ "y" = (.error .EINVAL, S1) ∧
    locationRename S1 ⟨0, 1⟩ "b" ⟨0, 1⟩ "c" =
      (if (S1.entry 1).kind = .file then (.error .ENOTDIR, S1)
       else if (S1.entry 1).kind = .file then (.error .ENOTDIR, S1)
       else dirRename S1 1 "b" 1 "c") := by
  refine ⟨?_, ?_, ?_, ?_⟩
  · exact (c5_exdev_and_ancestor_guard S4 ⟨0, 0⟩ ⟨1, 2⟩ "s" "t" (by decide)
      (by decide)).1 "n" ⟨1, 2⟩ (by decide)
  · exact (c5_exdev_and_ancestor_guard S4 ⟨0, 0⟩ ⟨1, 2⟩ "mnt" "y" (by decide)
      (by decide)).2.1 (by decide)
  · exact (c5_exdev_and_ancestor_guard S1 ⟨0, 0⟩ ⟨0, 1⟩ "x" "y" (by decide)
      (by decide)).2.2.1 rfl (by decide)
      (Ancestor.step (p := 0) (by decide) (Ancestor.refl 0))
  · exact (c5_exdev_and_ancestor_guard S1 ⟨0, 1⟩ ⟨0, 1⟩ "b" "c" (by decide)
      (by decide)).2.2.2 rfl (Or.inl rfl)

/-! ### The `forget` machinery

`DirNode::forget` recursively clears the child caches of a subtree of the
dentry graph.  The development below proves that, in a well-formed heap,
`forgetF` (i) only ever clears caches, (ii) touches only the subtree it was
started on, and (iii) clears the cache of every member of that subtree. -/

/-- Cache identifiers strictly grow along cache edges. -/
def CacheIncr (s : State) : Prop :=
  ∀ i pr, pr ∈ (s.entry i).cache → i < pr.2

/-- Every cached entry's reference points back at the caching directory
under the binding's name. -/
def CacheParent (s : State) : Prop :=
  ∀ i pr, pr ∈ (s.entry i).cache → (s.entry pr.2).ref = ⟨some i, pr.1⟩

/-- File-variant entries have no cache and no mount slot. -/
def FileNoCache (s : State) : Prop :=
  ∀ i, (s.entry i).kind = .file → (s.entry i).cache = [] ∧ (s.entry i).mnt = none

/-- Cache key lists contain no duplicates. -/
def CacheNodup (s : State) : Prop :=
  ∀ i, ((s.entry i).cache.map Prod.fst).Nodup

/-- Cache targets stay inside the heap. -/
def CacheBound (s : State) : Prop :=
  ∀ i pr, pr ∈ (s.entry i).cache → pr.2 < s.entries.length

/-- The cache-layer invariants bundled. -/
def CacheWF (s : State) : Prop :=
  CacheIncr s ∧ CacheParent s ∧ FileNoCache s ∧ CacheNodup s ∧ CacheBound s

theorem wf_cacheWF {s : State} (h : wfB s = true) : CacheWF s := by
  have hok : ∀ i, i < s.entries.length → entryOkB s i = true := fun i hi =>
    wfB_entryOk h hi
  have hcache : ∀ i pr, pr ∈ (s.entry i).cache →
      pr.2 < s.entries.length ∧ i < pr.2 ∧
      (s.entry pr.2).ref = ⟨some i, pr.1⟩ ∧ verifyEntryName pr.1 = .ok () := by
    intro i pr hm
    rcases Nat.lt_or_ge i s.entries.length with hi | hi
    · have he := hok i hi
      simp only [entryOkB, Bool.and_eq_true, List.all_eq_true] at he
      have := he.1.1.1.2 pr hm
      simp only [Bool.and_eq_true, decide_eq_true_eq, beq_iff_eq] at this
      exact ⟨this.1.1.1, this.1.1.2, this.1.2, this.2⟩
    · rw [entry_out_of_range hi] at hm
      exact absurd hm (by simp [default])
  refine ⟨fun i pr hm => (hcache i pr hm).2.1,
    fun i pr hm => (hcache i pr hm).2.2.1, ?_, ?_,
    fun i pr hm => (hcache i pr hm).1⟩
  · intro i hk
    rcases Nat.lt_or_ge i s.entries.length with hi | hi
    · have he := hok i hi
      simp only [entryOkB, Bool.and_eq_true] at he
      have := he.1.2
      rw [hk] at this
      simp only [Bool.and_eq_true, beq_iff_eq] at this
      exact this
    · rw [entry_out_of_range hi]
      exact ⟨rfl, rfl⟩
  · intro i
    rcases Nat.lt_or_ge i s.entries.length with hi | hi
    · have he := hok i hi
      simp only [entryOkB, Bool.and_eq_true] at he
      exact of_decide_eq_true he.1.1.2
    · rw [entry_out_of_range hi]
      simp [default]

/-- Entries reachable from `root` along cache edges. -/
inductive InSubtree (s : State) (root : EntryId) : EntryId → Prop where
  | base : InSubtree s root root
  | step {x : EntryId} {pr : String × EntryId} : InSubtree s root x →
      pr ∈ (s.entry x).cache → InSubtree s root pr.2

theorem inSubtree_ge {s : State} {c x : EntryId} (hci : CacheIncr s)
    (h : InSubtree s c x) : c ≤ x := by
  induction h with
  | base => exact le_refl c
  | step h1 hm ih => exact le_of_lt (Nat.lt_of_le_of_lt ih (hci _ _ hm))

theorem inSubtree_trans {s : State} {a b x : EntryId}
    (h1 : InSubtree s a b) (h2 : InSubtree s b x) : InSubtree s a x := by
  induction h2 with
  | base => exact h1
  | step h3 hm ih => exact InSubtree.step ih hm

/-- Inversion: a strict subtree member is reached through a cache edge from
another subtree member. -/
theorem inSubtree_inv {s : State} {c x : EntryId} (h : InSubtree s c x)
    (hne : x ≠ c) :
    ∃ y pr, InSubtree s c y ∧ pr ∈ (s.entry y).cache ∧ pr.2 = x := by
  cases h with
  | base => exact absurd rfl hne
  | step h1 hm => exact ⟨_, _, h1, hm, rfl⟩

/-- Decomposition: a strict subtree member lies in the subtree of one of
the root's cached children. -/
theorem inSubtree_decompose {s : State} {c x : EntryId} (h : InSubtree s c x)
    (hne : x ≠ c) :
    ∃ pr, pr ∈ (s.entry c).cache ∧ InSubtree s pr.2 x := by
  induction h with
  | base => exact absurd rfl hne
  | step h1 hm ih =>
    rename_i y pr
    by_cases hy : y = c
    · subst hy
      exact ⟨pr, hm, InSubtree.base⟩
    · obtain ⟨q, hq, hsub⟩ := ih hy
      exact ⟨q, hq, InSubtree.step hsub hm⟩

/-- `t` differs from `s` at most by clearing some caches. -/
def ErasedFrom (s t : State) : Prop :=
  t.inodes = s.inodes ∧ t.mounts = s.mounts ∧
  t.entries.length = s.entries.length ∧
  ∀ x, t.entry x = s.entry x ∨ t.entry x = { s.entry x with cache := [] }

theorem erasedFrom_refl (s : State) : ErasedFrom s s :=
  ⟨rfl, rfl, rfl, fun _ => Or.inl rfl⟩

theorem erasedFrom_trans {s t u : State} (h1 : ErasedFrom s t)
    (h2 : ErasedFrom t u) : ErasedFrom s u := by
  refine ⟨h2.1.trans h1.1, h2.2.1.trans h1.2.1, h2.2.2.1.trans h1.2.2.1, ?_⟩
  intro x
  rcases h2.2.2.2 x with h3 | h3 <;> rcases h1.2.2.2 x with h4 | h4
  · exact Or.inl (h3.trans h4)
  · exact Or.inr (h3.trans h4)
  · rw [h3, h4]
    exact Or.inr rfl
  · rw [h3, h4]
    exact Or.inr rfl

theorem erasedFrom_cache {s t : State} (h : ErasedFrom s t) (x : EntryId) :
    (t.entry x).cache = (s.entry x).cache ∨ (t.entry x).cache = [] := by
  rcases h.2.2.2 x with h1 | h1
  · exact Or.inl (by rw [h1])
  · exact Or.inr (by rw [h1])

theorem erasedFrom_kind {s t : State} (h : ErasedFrom s t) (x : EntryId) :
    (t.entry x).kind = (s.entry x).kind := by
  rcases h.2.2.2 x with h1 | h1 <;> rw [h1]

theorem erasedFrom_ref {s t : State} (h : ErasedFrom s t) (x : EntryId) :
    (t.entry x).ref = (s.entry x).ref := by
  rcases h.2.2.2 x with h1 | h1 <;> rw [h1]

theorem erasedFrom_keeps_empty {s t : State} (h : ErasedFrom s t)
    {x : EntryId} (hx : (s.entry x).cache = []) : (t.entry x).cache = [] := by
  rcases erasedFrom_cache h x with h1 | h1
  · rw [h1, hx]
  · exact h1

theorem erasedFrom_cacheIncr {s t : State} (h : ErasedFrom s t)
    (hci : CacheIncr s) : CacheIncr t := by
  intro i pr hm
  rcases erasedFrom_cache h i with h1 | h1
  · exact hci i pr (h1 ▸ hm)
  · rw [h1] at hm
    exact absurd hm (List.not_mem_nil pr)

theorem erasedFrom_cacheParent {s t : State} (h : ErasedFrom s t)
    (hcp : CacheParent s) : CacheParent t := by
  intro i pr hm
  rcases erasedFrom_cache h i with h1 | h1
  · rw [erasedFrom_ref h]
    exact hcp i pr (h1 ▸ hm)
  · rw [h1] at hm
    exact absurd hm (List.not_mem_nil pr)

theorem erasedFrom_fileNoCache {s t : State} (h : ErasedFrom s t)
    (hf : FileNoCache s) : FileNoCache t := by
  intro i hk
  rw [erasedFrom_kind h] at hk
  rcases h.2.2.2 i with h1 | h1
  · rw [h1]
    exact hf i hk
  · rw [h1]
    exact ⟨rfl, (hf i hk).2⟩

theorem erasedFrom_inSubtree {s t : State} (h : ErasedFrom s t)
    {r x : EntryId} (hx : InSubtree t r x) : InSubtree s r x := by
  induction hx with
  | base => exact InSubtree.base
  | step h1 hm ih =>
    rename_i y pr
    rcases erasedFrom_cache h y with h2 | h2
    · exact InSubtree.step ih (h2 ▸ hm)
    · rw [h2] at hm
      exact absurd hm (List.not_mem_nil pr)

/-- Transfer of subtree membership to a state that agrees on the subtree. -/
theorem inSubtree_transfer {s t : State} {r x : EntryId}
    (hagree : ∀ y, InSubtree s r y → t.entry y = s.entry y)
    (hx : InSubtree s r x) : InSubtree t r x := by
  induction hx with
  | base => exact InSubtree.base
  | step h1 hm ih =>
    rename_i y pr
    exact InSubtree.step ih (by rw [hagree y h1]; exact hm)

theorem erasedFrom_cacheNodup {s t : State} (h : ErasedFrom s t)
    (hnd : CacheNodup s) : CacheNodup t := by
  intro i
  rcases erasedFrom_cache h i with h1 | h1
  · rw [h1]
    exact hnd i
  · rw [h1]
    exact List.nodup_nil

theorem clear_cache_erased (s : State) (c : EntryId) :
    ErasedFrom s (s.setEntry c { s.entry c with cache := [] }) := by
  refine ⟨rfl, rfl, setEntry_entries_length, ?_⟩
  intro x
  by_cases hx : x = c
  · subst hx
    rcases Nat.lt_or_ge x s.entries.length with hlt | hge
    · rw [entry_setEntry_self hlt]
      exact Or.inr rfl
    · rw [setEntry_cache_d_oor hge]
      exact Or.inl rfl
  · rw [entry_setEntry_other hx]
    exact Or.inl rfl

theorem clear_cache_self (s : State) (c : EntryId) :
    ((s.setEntry c { s.entry c with cache := [] }).entry c).cache = [] := by
  rcases Nat.lt_or_ge c s.entries.length with hlt | hge
  · rw [entry_setEntry_self hlt]
  · rw [setEntry_cache_d_oor hge, entry_out_of_range hge]
    rfl

theorem forgetF_erased : ∀ (f : Nat) (s : State) (c : EntryId),
    ErasedFrom s (forgetF f s c) := by
  intro f
  induction f with
  | zero => intro s c; exact erasedFrom_refl s
  | succ n ih =>
    intro s c
    simp only [forgetF]
    refine erasedFrom_trans (clear_cache_erased s c) ?_
    generalize (s.entry c).cache = ch
    generalize s.setEntry c { s.entry c with cache := [] } = acc
    induction ch generalizing acc with
    | nil => exact erasedFrom_refl acc
    | cons q rest ihc =>
      simp only [List.foldl_cons]
      by_cases hk : (acc.entry q.2).kind = NodeKind.dir
      · rw [if_pos hk]
        exact erasedFrom_trans (ih acc q.2) (ihc _)
      · rw [if_neg hk]
        exact ihc acc

theorem foldl_forget_erased (f : Nat) :
    ∀ (ch : List (String × EntryId)) (acc : State),
      ErasedFrom acc (ch.foldl
        (fun a pr => if (a.entry pr.2).kind = .dir then forgetF f a pr.2 else a)
        acc) := by
  intro ch
  induction ch with
  | nil => intro acc; exact erasedFrom_refl acc
  | cons q rest ih =>
    intro acc
    simp only [List.foldl_cons]
    by_cases hk : (acc.entry q.2).kind = NodeKind.dir
    · rw [if_pos hk]
      exact erasedFrom_trans (forgetF_erased f acc q.2) (ih _)
    · rw [if_neg hk]
      exact ih acc

/-- `forgetF` leaves every entry below its root untouched (identifiers grow
along cache edges, so the recursion never descends below the root). -/
theorem foldl_forget_below (n : Nat) (x : EntryId)
    (hstep : ∀ (a : State) (c : EntryId), CacheIncr a → x < c →
      (forgetF n a c).entry x = a.entry x) :
    ∀ (ch : List (String × EntryId)) (acc : State), CacheIncr acc →
      (∀ pr ∈ ch, x < pr.2) →
      ((ch.foldl
        (fun a pr => if (a.entry pr.2).kind = .dir then forgetF n a pr.2 else a)
        acc).entry x = acc.entry x) := by
  intro ch
  induction ch with
  | nil => intro acc _ _; rfl
  | cons q rest ih =>
    intro acc hacc hch
    simp only [List.foldl_cons]
    by_cases hk : (acc.entry q.2).kind = NodeKind.dir
    · rw [if_pos hk]
      rw [ih (forgetF n acc q.2)
        (erasedFrom_cacheIncr (forgetF_erased n acc q.2) hacc)
        (fun pr hm => hch pr (List.mem_cons_of_mem q hm))]
      exact hstep acc q.2 hacc (hch q (List.mem_cons_self q rest))
    · rw [if_neg hk]
      exact ih acc hacc (fun pr hm => hch pr (List.mem_cons_of_mem q hm))

theorem forgetF_below : ∀ (f : Nat) (s : State) (c x : EntryId),
    CacheIncr s → x < c → (forgetF f s c).entry x = s.entry x := by
  intro f
  induction f with
  | zero => intro s c x _ _; rfl
  | succ n ih =>
    intro s c x hci hx
    simp only [forgetF]
    have h1 : (s.setEntry c { s.entry c with cache := [] }).entry x = s.entry x :=
      entry_setEntry_other (Nat.ne_of_lt hx)
    rw [foldl_forget_below n x (fun a r ha hxr => ih a r x ha hxr)
      (s.entry c).cache (s.setEntry c { s.entry c with cache := [] })
      (erasedFrom_cacheIncr (clear_cache_erased s c) hci)
      (fun pr hm => Nat.lt_trans hx (hci c pr hm)), h1]

/-- `forgetF` modifies only entries of the subtree it was started on. -/
theorem foldl_forget_touch (n : Nat) {s : State} {c x : EntryId}
    (htouch : ∀ (a : State) (r : EntryId), (forgetF n a r).entry x ≠ a.entry x →
      InSubtree a r x) :
    ∀ (ch : List (String × EntryId)), (∀ pr ∈ ch, InSubtree s c pr.2) →
      ∀ (acc : State), ErasedFrom s acc →
      ((ch.foldl
        (fun a pr => if (a.entry pr.2).kind = .dir then forgetF n a pr.2 else a)
        acc).entry x ≠ acc.entry x) → InSubtree s c x := by
  intro ch
  induction ch with
  | nil =>
    intro _ acc _ h
    exact absurd rfl h
  | cons q rest ih =>
    intro hmem acc hacc h
    simp only [List.foldl_cons] at h
    by_cases hk : (acc.entry q.2).kind = NodeKind.dir
    · rw [if_pos hk] at h
      by_cases hstep : (forgetF n acc q.2).entry x = acc.entry x
      · rw [← hstep] at h
        exact ih (fun pr hm => hmem pr (List.mem_cons_of_mem q hm)) _
          (erasedFrom_trans hacc (forgetF_erased n acc q.2)) h
      · exact inSubtree_trans (hmem q (List.mem_cons_self q rest))
          (erasedFrom_inSubtree hacc (htouch acc q.2 hstep))
    · rw [if_neg hk] at h
      exact ih (fun pr hm => hmem pr (List.mem_cons_of_mem q hm)) _ hacc h

theorem forgetF_touch : ∀ (f : Nat) (s : State) (c x : EntryId),
    (forgetF f s c).entry x ≠ s.entry x → InSubtree s c x := by
  intro f
  induction f with
  | zero => intro s c x h; exact absurd rfl h
  | succ n ih =>
    intro s c x h
    by_cases hxc : x = c
    · subst hxc
      exact InSubtree.base
    · simp only [forgetF] at h
      have h1 : (s.setEntry c { s.entry c with cache := [] }).entry x = s.entry x :=
        entry_setEntry_other hxc
      rw [← h1] at h
      exact foldl_forget_touch n (fun a r hne => ih a r x hne) (s.entry c).cache
        (fun pr hm => InSubtree.step InSubtree.base hm) _
        (clear_cache_erased s c) h

/-- Subtrees of distinct cached children of the same directory are
disjoint. -/
theorem sibling_subtrees_disjoint {s : State} (hci : CacheIncr s)
    (hcp : CacheParent s) {c : EntryId} {pr1 pr2 : String × EntryId}
    (h1 : pr1 ∈ (s.entry c).cache) (h2 : pr2 ∈ (s.entry c).cache)
    (hne : pr1.2 ≠ pr2.2) :
    ∀ x, InSubtree s pr1.2 x → InSubtree s pr2.2 x → False := by
  intro x
  induction x using Nat.strong_induction_on with
  | _ x ih =>
    intro ha hb
    by_cases hx1 : x = pr1.2
    · have hxne2 : x ≠ pr2.2 := by rw [hx1]; exact hne
      obtain ⟨y, q, hy, hq, hqe⟩ := inSubtree_inv hb hxne2
      have hr1 : (s.entry x).ref = ⟨some y, q.1⟩ := by
        rw [← hqe]
        exact hcp y q hq
      have hr2 : (s.entry x).ref = ⟨some c, pr1.1⟩ := by
        rw [hx1]
        exact hcp c pr1 h1
      have hyc : y = c :=
        Option.some_injective _ (congrArg Reference.parent (hr1.symm.trans hr2))
      rw [hyc] at hy
      exact absurd (hci c pr2 h2) (Nat.not_lt_of_le (inSubtree_ge hci hy))
    · by_cases hx2 : x = pr2.2
      · have hxne1 : x ≠ pr1.2 := by rw [hx2]; exact fun he => hne he.symm
        obtain ⟨y, q, hy, hq, hqe⟩ := inSubtree_inv ha hxne1
        have hr1 : (s.entry x).ref = ⟨some y, q.1⟩ := by
          rw [← hqe]
          exact hcp y q hq
        have hr2 : (s.entry x).ref = ⟨some c, pr2.1⟩ := by
          rw [hx2]
          exact hcp c pr2 h2
        have hyc : y = c :=
          Option.some_injective _ (congrArg Reference.parent (hr1.symm.trans hr2))
        rw [hyc] at hy
        exact absurd (hci c pr1 h1) (Nat.not_lt_of_le (inSubtree_ge hci hy))
      · obtain ⟨y1, q1, hy1, hq1, hq1e⟩ := inSubtree_inv ha hx1
        obtain ⟨y2, q2, hy2, hq2, hq2e⟩ := inSubtree_inv hb hx2
        have hr1 : (s.entry x).ref = ⟨some y1, q1.1⟩ := by
          rw [← hq1e]
          exact hcp y1 q1 hq1
        have hr2 : (s.entry x).ref = ⟨some y2, q2.1⟩ := by
          rw [← hq2e]
          exact hcp y2 q2 hq2
        have hy12 : y1 = y2 :=
          Option.some_injective _ (congrArg Reference.parent (hr1.symm.trans hr2))
        rw [← hy12] at hy2
        have hlt : y1 < x := by
          rw [← hq1e]
          exact hci y1 q1 hq1
        exact ih y1 hlt hy1 hy2

/-- The fold step of the subtree-clearing proof: every member of the
subtree of every pending child ends up with an empty cache. -/
theorem foldl_forget_clear (f : Nat) {s : State} {c : EntryId}
    (hci : CacheIncr s) (hcp : CacheParent s) (hfc : FileNoCache s)
    (hnds : CacheNodup s)
    (hIH : ∀ (a : State) (r x : EntryId), CacheIncr a → CacheParent a →
      FileNoCache a → CacheNodup a → a.entries.length ≤ r + f → InSubtree a r x →
      ((forgetF f a r).entry x).cache = []) :
    ∀ (ch : List (String × EntryId)),
      (∀ pr ∈ ch, pr ∈ (s.entry c).cache) →
      (ch.map Prod.fst).Nodup →
      ∀ (acc : State), ErasedFrom s acc →
      (∀ pr ∈ ch, ∀ y, InSubtree s pr.2 y → acc.entry y = s.entry y) →
      s.entries.length ≤ c + (f + 1) →
      ∀ pr ∈ ch, ∀ x, InSubtree s pr.2 x →
        (((ch.foldl
          (fun a pr => if (a.entry pr.2).kind = .dir then forgetF f a pr.2 else a)
          acc).entry x).cache = []) := by
  intro ch
  induction ch with
  | nil =>
    intro _ _ acc _ _ _ pr hpr
    exact absurd hpr (List.not_mem_nil pr)
  | cons q rest ih =>
    intro hsub hnd acc hacc hpres hlen pr hpr x hx
    simp only [List.foldl_cons]
    have hqmem : q ∈ (s.entry c).cache := hsub q (List.mem_cons_self q rest)
    have hsub2 : ∀ pr2 ∈ rest, pr2 ∈ (s.entry c).cache := fun pr2 hm =>
      hsub pr2 (List.mem_cons_of_mem q hm)
    have hnd2 : (rest.map Prod.fst).Nodup := (List.nodup_cons.mp hnd).2
    have hdistinct : ∀ pr2 ∈ rest, q.2 ≠ pr2.2 := by
      intro pr2 hm he
      have hrq : (s.entry q.2).ref = ⟨some c, q.1⟩ := hcp c q hqmem
      have hrp : (s.entry pr2.2).ref = ⟨some c, pr2.1⟩ := hcp c pr2 (hsub2 pr2 hm)
      rw [← he] at hrp
      have hn : q.1 = pr2.1 := congrArg Reference.name (hrq.symm.trans hrp)
      exact (List.nodup_cons.mp hnd).1 (hn ▸ List.mem_map_of_mem Prod.fst hm)
    rcases List.mem_cons.mp hpr with hpq | hprest
    · -- the target child is the head of the list
      subst hpq
      have hclear : (((if (acc.entry pr.2).kind = NodeKind.dir then
          forgetF f acc pr.2 else acc)).entry x).cache = [] := by
        by_cases hk : (acc.entry pr.2).kind = NodeKind.dir
        · rw [if_pos hk]
          exact hIH acc pr.2 x
            (erasedFrom_cacheIncr hacc hci)
            (erasedFrom_cacheParent hacc hcp)
            (erasedFrom_fileNoCache hacc hfc)
            (erasedFrom_cacheNodup hacc hnds)
            (by
              rw [hacc.2.2.1]
              have hclt : c + 1 ≤ pr.2 := hci c pr hqmem
              calc s.entries.length ≤ c + (f + 1) := hlen
                _ = c + 1 + f := by rw [Nat.add_comm f 1, ← Nat.add_assoc]
                _ ≤ pr.2 + f := Nat.add_le_add_right hclt f)
            (inSubtree_transfer (hpres pr (List.mem_cons_self pr rest)) hx)
        · rw [if_neg hk]
          have hkind : (s.entry pr.2).kind = NodeKind.file := by
            have hek := erasedFrom_kind hacc pr.2
            cases hkk : (s.entry pr.2).kind with
            | file => rfl
            | dir => rw [hkk] at hek; exact absurd hek hk
          have hemp : (s.entry pr.2).cache = [] := (hfc pr.2 hkind).1
          have hxeq : x = pr.2 := by
            by_cases hne : x = pr.2
            · exact hne
            · obtain ⟨q2, hq2, _⟩ := inSubtree_decompose hx hne
              rw [hemp] at hq2
              exact absurd hq2 (List.not_mem_nil q2)
          rw [hxeq, hpres pr (List.mem_cons_self pr rest) pr.2 InSubtree.base]
          exact hemp
      exact erasedFrom_keeps_empty (foldl_forget_erased f rest _) hclear
    · -- the target child lies in the tail; step the accumulator once
      have hacc1 : ErasedFrom s (if (acc.entry q.2).kind = NodeKind.dir then
          forgetF f acc q.2 else acc) := by
        by_cases hk : (acc.entry q.2).kind = NodeKind.dir
        · rw [if_pos hk]
          exact erasedFrom_trans hacc (forgetF_erased f acc q.2)
        · rw [if_neg hk]
          exact hacc
      have hpres1 : ∀ pr2 ∈ rest, ∀ y, InSubtree s pr2.2 y →
          (if (acc.entry q.2).kind = NodeKind.dir then
            forgetF f acc q.2 else acc).entry y = s.entry y := by
        intro pr2 hm y hy
        by_cases hk : (acc.entry q.2).kind = NodeKind.dir
        · rw [if_pos hk]
          by_cases hch : (forgetF f acc q.2).entry y = acc.entry y
          · rw [hch]
            exact hpres pr2 (List.mem_cons_of_mem q hm) y hy
          · exfalso
            have hsubq : InSubtree s q.2 y :=
              erasedFrom_inSubtree hacc (forgetF_touch f acc q.2 y hch)
            exact sibling_subtrees_disjoint hci hcp hqmem (hsub2 pr2 hm)
              (hdistinct pr2 hm) y hsubq hy
        · rw [if_neg hk]
          exact hpres pr2 (List.mem_cons_of_mem q hm) y hy
      exact ih hsub2 hnd2 _ hacc1 hpres1 hlen pr hprest x hx

/-- `forgetF` with enough fuel clears the cache of every subtree member. -/
theorem forgetF_clear : ∀ (f : Nat) (s : State) (r x : EntryId),
    CacheIncr s → CacheParent s → FileNoCache s → CacheNodup s →
    s.entries.length ≤ r + f → InSubtree s r x →
    ((forgetF f s r).entry x).cache = [] := by
  intro f
  induction f with
  | zero =>
    intro s r x hci _ _ _ hlen hx
    show ((s.entry x).cache = [])
    have hge : s.entries.length ≤ x := le_trans (by omega) (inSubtree_ge hci hx)
    rw [entry_out_of_range hge]
    rfl
  | succ n ih =>
    intro s r x hci hcp hfc hnd hlen hx
    simp only [forgetF]
    by_cases hxr : x = r
    · subst hxr
      exact erasedFrom_keeps_empty (foldl_forget_erased n _ _) (clear_cache_self s x)
    · obtain ⟨pr, hpr, hx2⟩ := inSubtree_decompose hx hxr
      have hpres : ∀ pr2 ∈ (s.entry r).cache, ∀ y, InSubtree s pr2.2 y →
          (s.setEntry r { s.entry r with cache := [] }).entry y = s.entry y := by
        intro pr2 hm y hy
        have hry : r < y := Nat.lt_of_lt_of_le (hci r pr2 hm) (inSubtree_ge hci hy)
        exact entry_setEntry_other (Nat.ne_of_gt hry)
      exact foldl_forget_clear n hci hcp hfc hnd ih (s.entry r).cache
        (fun pr2 hm => hm) (hnd r) _ (clear_cache_erased s r) hpres hlen pr hpr x hx2

/-! ### Preservation of the cache invariants by `lookup_locked` and the
cache edits of `unlink` -/

theorem mem_assocSet {α : Type} {l : List (String × α)} {k : String} {v : α}
    {pr : String × α} (h : pr ∈ assocSet l k v) : pr = (k, v) ∨ pr ∈ l := by
  induction l with
  | nil =>
    simp only [assocSet] at h
    rcases List.mem_singleton.mp h with h1
    exact Or.inl h1
  | cons hd tl ih =>
    by_cases h1 : hd.1 = k
    · simp only [assocSet, if_pos h1] at h
      rcases List.mem_cons.mp h with h2 | h2
      · exact Or.inl h2
      · exact Or.inr (List.mem_cons_of_mem hd h2)
    · simp only [assocSet, if_neg h1] at h
      rcases List.mem_cons.mp h with h2 | h2
      · exact Or.inr (h2 ▸ List.mem_cons_self hd tl)
      · rcases ih h2 with h3 | h3
        · exact Or.inl h3
        · exact Or.inr (List.mem_cons_of_mem hd h3)

theorem keys_assocSet {α : Type} {l : List (String × α)} {k : String} {v : α}
    {x : String} (h : x ∈ (assocSet l k v).map Prod.fst) :
    x ∈ l.map Prod.fst ∨ x = k := by
  obtain ⟨pr, hm, he⟩ := List.mem_map.mp h
  rcases mem_assocSet hm with h1 | h1
  · right
    rw [← he, h1]
  · left
    exact he ▸ List.mem_map_of_mem Prod.fst h1

theorem nodup_assocSet {α : Type} (l : List (String × α)) (k : String) (v : α)
    (hnd : (l.map Prod.fst).Nodup) : ((assocSet l k v).map Prod.fst).Nodup := by
  induction l with
  | nil => simp [assocSet]
  | cons hd tl ih =>
    simp only [List.map_cons, List.nodup_cons] at hnd
    by_cases h1 : hd.1 = k
    · simp only [assocSet, if_pos h1, List.map_cons, List.nodup_cons]
      exact ⟨h1 ▸ hnd.1, hnd.2⟩
    · simp only [assocSet, if_neg h1, List.map_cons, List.nodup_cons]
      refine ⟨fun hmem => ?_, ih hnd.2⟩
      rcases keys_assocSet hmem with h2 | h2
      · exact hnd.1 h2
      · exact h1 h2

theorem assocRemove_subset {α : Type} {l : List (String × α)} {k : String}
    {pr : String × α} (h : pr ∈ assocRemove l k) : pr ∈ l := by
  induction l with
  | nil => exact absurd h (List.not_mem_nil pr)
  | cons hd tl ih =>
    by_cases h1 : hd.1 = k
    · simp only [assocRemove, if_pos h1] at h
      exact List.mem_cons_of_mem hd h
    · simp only [assocRemove, if_neg h1] at h
      rcases List.mem_cons.mp h with h2 | h2
      · exact h2 ▸ List.mem_cons_self hd tl
      · exact List.mem_cons_of_mem hd (ih h2)

theorem nodup_assocRemove {α : Type} (l : List (String × α)) (k : String)
    (hnd : (l.map Prod.fst).Nodup) : ((assocRemove l k).map Prod.fst).Nodup := by
  induction l with
  | nil => simp [assocRemove]
  | cons hd tl ih =>
    simp only [List.map_cons, List.nodup_cons] at hnd
    by_cases h1 : hd.1 = k
    · simp only [assocRemove, if_pos h1]
      exact hnd.2
    · simp only [assocRemove, if_neg h1, List.map_cons, List.nodup_cons]
      refine ⟨fun hmem => ?_, ih hnd.2⟩
      obtain ⟨pr, hm, he⟩ := List.mem_map.mp hmem
      exact hnd.1 (he ▸ List.mem_map_of_mem Prod.fst (assocRemove_subset hm))

/-- Entry kinds, references and mount slots survive `setEntry` of a
cache-only update. -/
theorem setEntry_cache_only_ref (s : State) (d : EntryId)
    (ch : List (String × EntryId)) (i : EntryId) :
    ((s.setEntry d { s.entry d with cache := ch }).entry i).ref = (s.entry i).ref ∧
    ((s.setEntry d { s.entry d with cache := ch }).entry i).kind = (s.entry i).kind ∧
    ((s.setEntry d { s.entry d with cache := ch }).entry i).mnt = (s.entry i).mnt := by
  by_cases hi : i = d
  · subst hi
    rcases Nat.lt_or_ge i s.entries.length with hlt | hge
    · rw [entry_setEntry_self hlt]
      exact ⟨rfl, rfl, rfl⟩
    · rw [setEntry_cache_d_oor hge]
      exact ⟨rfl, rfl, rfl⟩
  · rw [entry_setEntry_other hi]
    exact ⟨rfl, rfl, rfl⟩

theorem setEntry_cache_only_cache (s : State) (d : EntryId)
    (ch : List (String × EntryId)) (hd : d < s.entries.length) (i : EntryId) :
    ((s.setEntry d { s.entry d with cache := ch }).entry i).cache =
      (if i = d then ch else (s.entry i).cache) := by
  by_cases hi : i = d
  · subst hi
    rw [entry_setEntry_self hd, if_pos rfl]
  · rw [entry_setEntry_other hi, if_neg hi]

/-- `materialize` preserves the cache invariants. -/
theorem materialize_cacheWF {s : State} (p : EntryId) (name : String)
    (ino : InodeId) (hwf : CacheWF s) : CacheWF (materialize s p name ino).2 := by
  obtain ⟨hci, hcp, hfc, hnd, hbd⟩ := hwf
  have hcache : ∀ i, ((materialize s p name ino).2.entry i).cache =
      (s.entry i).cache := fun i => materialize_cache_d s p name ino i
  refine ⟨?_, ?_, ?_, ?_, ?_⟩
  · intro i pr hm
    exact hci i pr ((hcache i) ▸ hm)
  · intro i pr hm
    have hb := hbd i pr ((hcache i) ▸ hm)
    rw [materialize_entry_lt hb]
    exact hcp i pr ((hcache i) ▸ hm)
  · intro i hk
    rcases Nat.lt_or_ge i s.entries.length with hlt | hge
    · rw [materialize_entry_lt hlt] at hk ⊢
      exact hfc i hk
    · rcases Nat.eq_or_lt_of_le hge with he | hlt2
      · rw [← he] at hk ⊢
        rw [materialize_entry_new] at hk ⊢
        exact ⟨rfl, rfl⟩
      · have hoor : (materialize s p name ino).2.entries.length ≤ i := by
          rw [materialize_entries_length]
          omega
        rw [entry_out_of_range hoor] at hk ⊢
        exact ⟨rfl, rfl⟩
  · intro i
    rw [hcache i]
    exact hnd i
  · intro i pr hm
    rw [materialize_entries_length]
    exact Nat.lt_succ_of_lt (hbd i pr ((hcache i) ▸ hm))

/-- Inserting a freshly materialised binding preserves the cache
invariants. -/
theorem insert_binding_cacheWF {s : State} {d c : EntryId} {name : String}
    (hwf : CacheWF s) (href : (s.entry c).ref = ⟨some d, name⟩)
    (hdc : d < c) (hcb : c < s.entries.length) (hdk : (s.entry d).kind = .dir) :
    CacheWF (s.setEntry d
      { s.entry d with cache := assocSet (s.entry d).cache name c }) := by
  obtain ⟨hci, hcp, hfc, hnd, hbd⟩ := hwf
  have hdlen : d < s.entries.length := by
    by_contra hge
    rw [entry_out_of_range (Nat.le_of_not_lt hge)] at hdk
    exact absurd hdk (by decide)
  have hcache := setEntry_cache_only_cache s d
    (assocSet (s.entry d).cache name c) hdlen
  have hother := setEntry_cache_only_ref s d (assocSet (s.entry d).cache name c)
  refine ⟨?_, ?_, ?_, ?_, ?_⟩
  · intro i pr hm
    rw [hcache i] at hm
    by_cases hi : i = d
    · rw [if_pos hi] at hm
      rcases mem_assocSet hm with h1 | h1
      · rw [h1, hi]
        exact hdc
      · exact hi ▸ hci d pr (hi ▸ h1)
    · rw [if_neg hi] at hm
      exact hci i pr hm
  · intro i pr hm
    rw [hcache i] at hm
    rw [(hother pr.2).1]
    by_cases hi : i = d
    · rw [if_pos hi] at hm
      rcases mem_assocSet hm with h1 | h1
      · rw [h1]
        exact hi ▸ href
      · exact hi ▸ hcp d pr (hi ▸ h1)
    · rw [if_neg hi] at hm
      exact hcp i pr hm
  · intro i hk
    rw [(hother i).2.1] at hk
    have hf := hfc i hk
    rw [hcache i, (hother i).2.2]
    by_cases hi : i = d
    · rw [hi] at hk
      rw [hk] at hdk
      exact absurd hdk (by decide)
    · rw [if_neg hi]
      exact hf
  · intro i
    rw [hcache i]
    by_cases hi : i = d
    · rw [if_pos hi]
      exact nodup_assocSet _ _ _ (hnd d)
    · rw [if_neg hi]
      exact hnd i
  · intro i pr hm
    rw [hcache i] at hm
    rw [setEntry_entries_length]
    by_cases hi : i = d
    · rw [if_pos hi] at hm
      rcases mem_assocSet hm with h1 | h1
      · rw [h1]
        exact hcb
      · exact hbd d pr h1
    · rw [if_neg hi] at hm
      exact hbd i pr hm

/-- `lookup_locked` preserves the cache invariants (for a directory). -/
theorem lookupLocked_cacheWF {s : State} {d : EntryId} {name : String}
    (hwf : CacheWF s) (hdk : (s.entry d).kind = .dir) :
    CacheWF (lookupLocked s d name).2 := by
  cases hc : assocGet (s.entry d).cache name with
  | some c =>
    have heq : (lookupLocked s d name).2 = s := by
      simp only [lookupLocked, hc]
    rw [heq]
    exact hwf
  | none =>
    cases hb : assocGet (s.inode (s.entry d).inode).children name with
    | none =>
      have heq : (lookupLocked s d name).2 = s := by
        simp only [lookupLocked, hc, backendLookup, hb]
      rw [heq]
      exact hwf
    | some ino =>
      have hbl : backendLookup s d name =
          (.ok (materialize s d name ino).1, (materialize s d name ino).2) := by
        simp only [backendLookup, hb]
      have hwfm : CacheWF (materialize s d name ino).2 :=
        materialize_cacheWF d name ino hwf
      by_cases hca : dirCacheable (materialize s d name ino).2 d
      · have heq : (lookupLocked s d name).2 =
            (materialize s d name ino).2.setEntry d
              { (materialize s d name ino).2.entry d with
                cache := assocSet ((materialize s d name ino).2.entry d).cache name
                  (materialize s d name ino).1 } := by
          simp only [lookupLocked, hc, hbl, hca, if_true]
        rw [heq]
        have hdlen : d < s.entries.length := by
          by_contra hge
          rw [entry_out_of_range (Nat.le_of_not_lt hge)] at hdk
          exact absurd hdk (by decide)
        refine insert_binding_cacheWF hwfm ?_ ?_ ?_ ?_
        · rw [materialize_fst, materialize_entry_new]
        · rw [materialize_fst]
          exact hdlen
        · rw [materialize_fst, materialize_entries_length]
          exact Nat.lt_succ_self _
        · rw [materialize_entry_lt hdlen]
          exact hdk
      · have heq : (lookupLocked s d name).2 = (materialize s d name ino).2 := by
          simp only [lookupLocked, hc, hbl, hca]
          simp
        rw [heq]
        exact hwfm

/-- Removing a binding preserves the cache invariants. -/
theorem remove_binding_cacheWF {s : State} {d : EntryId} {name : String}
    (hwf : CacheWF s) :
    CacheWF (s.setEntry d
      { s.entry d with cache := assocRemove (s.entry d).cache name }) := by
  obtain ⟨hci, hcp, hfc, hnd, hbd⟩ := hwf
  have hother := setEntry_cache_only_ref s d (assocRemove (s.entry d).cache name)
  have hsub : ∀ i pr, pr ∈ ((s.setEntry d
      { s.entry d with cache := assocRemove (s.entry d).cache name }).entry i).cache →
      pr ∈ (s.entry i).cache := by
    intro i pr hm
    by_cases hi : i = d
    · subst hi
      rcases Nat.lt_or_ge i s.entries.length with hlt | hge
      · rw [entry_setEntry_self hlt] at hm
        exact assocRemove_subset hm
      · rw [setEntry_cache_d_oor hge] at hm
        exact hm
    · rw [entry_setEntry_other hi] at hm
      exact hm
  refine ⟨fun i pr hm => hci i pr (hsub i pr hm), ?_, ?_, ?_, ?_⟩
  · intro i pr hm
    rw [(hother pr.2).1]
    exact hcp i pr (hsub i pr hm)
  · intro i hk
    rw [(hother i).2.1] at hk
    have hf := hfc i hk
    refine ⟨?_, ((hother i).2.2) ▸ hf.2⟩
    by_cases hi : i = d
    · subst hi
      rcases Nat.lt_or_ge i s.entries.length with hlt | hge
      · rw [entry_setEntry_self hlt]
        show assocRemove (s.entry i).cache name = []
        rw [hf.1]
        rfl
      · rw [setEntry_cache_d_oor hge]
        exact hf.1
    · rw [entry_setEntry_other hi]
      exact hf.1
  · intro i
    by_cases hi : i = d
    · subst hi
      rcases Nat.lt_or_ge i s.entries.length with hlt | hge
      · rw [entry_setEntry_self hlt]
        exact nodup_assocRemove _ _ (hnd i)
      · rw [setEntry_cache_d_oor hge]
        exact hnd i
    · rw [entry_setEntry_other hi]
      exact hnd i
  · intro i pr hm
    rw [setEntry_entries_length]
    exact hbd i pr (hsub i pr hm)

/-! ### C6 — `DirNode::unlink` -/

/-- After a successful `lookup_locked`, the returned entry is the cache
binding for the name, or the name is uncached (non-cacheable miss) and the
returned dentry is freshly materialised with an empty cache. -/
theorem lookupLocked_ok_binding {s : State} {d : EntryId} {name : String}
    {e : EntryId} {s1 : State} (h : lookupLocked s d name = (.ok e, s1)) :
    assocGet (s1.entry d).cache name = some e ∨
    (assocGet (s1.entry d).cache name = none ∧ (s1.entry e).cache = []) := by
  cases hc : assocGet (s.entry d).cache name with
  | some c =>
    have heq : lookupLocked s d name = (.ok c, s) := by
      simp only [lookupLocked, hc]
    rw [heq] at h
    obtain ⟨he, hs⟩ := Prod.mk.injEq .. |>.mp h
    have hce : c = e := Except.ok.injEq .. |>.mp he
    left
    rw [← hs, ← hce]
    exact hc
  | none =>
    cases hb : assocGet (s.inode (s.entry d).inode).children name with
    | none =>
      have heq : lookupLocked s d name = (.error .ENOENT, s) := by
        simp only [lookupLocked, hc, backendLookup, hb]
      rw [heq] at h
      exact absurd (congrArg Prod.fst h) (by simp)
    | some ino =>
      have hbl : backendLookup s d name =
          (.ok (materialize s d name ino).1, (materialize s d name ino).2) := by
        simp only [backendLookup, hb]
      by_cases hca : dirCacheable (materialize s d name ino).2 d
      · have heq : lookupLocked s d name =
            (.ok (materialize s d name ino).1,
              (materialize s d name ino).2.setEntry d
                { (materialize s d name ino).2.entry d with
                  cache := assocSet ((materialize s d name ino).2.entry d).cache
                    name (materialize s d name ino).1 }) := by
          simp only [lookupLocked, hc, hbl, hca, if_true]
        rw [heq] at h
        obtain ⟨he, hs⟩ := Prod.mk.injEq .. |>.mp h
        have hee : (materialize s d name ino).1 = e :=
          Except.ok.injEq .. |>.mp he
        rcases Nat.lt_or_ge d (materialize s d name ino).2.entries.length
          with hlt | hge
        · left
          rw [← hs, entry_setEntry_self hlt, ← hee]
          exact assocGet_set_self _ _ _
        · right
          constructor
          · rw [← hs, setEntry_cache_d_oor hge, materialize_cache_d]
            exact hc
          · rw [← hs, setEntry_cache_d_oor hge, ← hee, materialize_fst,
              materialize_entry_new]
      · have heq : lookupLocked s d name =
            (.ok (materialize s d name ino).1, (materialize s d name ino).2) := by
          simp only [lookupLocked, hc, hbl, hca]
          simp
        rw [heq] at h
        obtain ⟨he, hs⟩ := Prod.mk.injEq .. |>.mp h
        have hee : (materialize s d name ino).1 = e :=
          Except.ok.injEq .. |>.mp he
        right
        constructor
        · rw [← hs, materialize_cache_d]
          exact hc
        · rw [← hs, ← hee, materialize_fst, materialize_entry_new]

theorem assocGet_mem {α : Type} {l : List (String × α)} {k : String} {v : α}
    (h : assocGet l k = some v) : (k, v) ∈ l := by
  induction l with
  | nil => exact absurd h (by simp [assocGet])
  | cons hd tl ih =>
    by_cases h1 : hd.1 = k
    · simp only [assocGet, if_pos h1] at h
      obtain ⟨a, b⟩ := hd
      simp only at h1 h
      rw [Option.some_inj] at h
      rw [← h1, ← h]
      exact List.mem_cons_self _ _
    · simp only [assocGet, if_neg h1] at h
      exact List.mem_cons_of_mem hd (ih h)

theorem backendUnlink_entries (s : State) (d : EntryId) (name : String) :
    (backendUnlink s d name).2.entries = s.entries := by
  cases hb : assocGet (s.inode (s.entry d).inode).children name with
  | none => simp only [backendUnlink, hb]
  | some ino =>
    by_cases h : (s.inode ino).kind = NodeKind.dir ∧ (s.inode ino).children ≠ []
    · simp only [backendUnlink, hb, if_pos h]
    · simp only [backendUnlink, hb, if_neg h]
      rfl

theorem entries_eq_entry {s t : State} (h : t.entries = s.entries) (j : EntryId) :
    t.entry j = s.entry j := by
  simp [State.entry, h]

theorem inSubtree_entries_eq {s t : State} (h : t.entries = s.entries)
    {r x : EntryId} (hx : InSubtree s r x) : InSubtree t r x := by
  induction hx with
  | base => exact InSubtree.base
  | step h1 hm ih => exact InSubtree.step ih ((entries_eq_entry h _) ▸ hm)

theorem cacheWF_entries_eq {s t : State} (h : t.entries = s.entries)
    (hwf : CacheWF s) : CacheWF t := by
  obtain ⟨hci, hcp, hfc, hnd, hbd⟩ := hwf
  refine ⟨?_, ?_, ?_, ?_, ?_⟩
  · intro i pr hm
    exact hci i pr ((entries_eq_entry h i) ▸ hm)
  · intro i pr hm
    rw [entries_eq_entry h pr.2]
    exact hcp i pr ((entries_eq_entry h i) ▸ hm)
  · intro i hk
    rw [entries_eq_entry h i] at hk ⊢
    exact hfc i hk
  · intro i
    rw [entries_eq_entry h i]
    exact hnd i
  · intro i pr hm
    rw [h]
    exact hbd i pr ((entries_eq_entry h i) ▸ hm)

theorem lookupLocked_length_ge (s : State) (d : EntryId) (name : String) :
    s.entries.length ≤ (lookupLocked s d name).2.entries.length := by
  cases hc : assocGet (s.entry d).cache name with
  | some c =>
    have heq : (lookupLocked s d name).2 = s := by
      simp only [lookupLocked, hc]
    rw [heq]
  | none =>
    cases hb : assocGet (s.inode (s.entry d).inode).children name with
    | none =>
      have heq : (lookupLocked s d name).2 = s := by
        simp only [lookupLocked, hc, backendLookup, hb]
      rw [heq]
    | some ino =>
      have hbl : backendLookup s d name =
          (.ok (materialize s d name ino).1, (materialize s d name ino).2) := by
        simp only [backendLookup, hb]
      by_cases hca : dirCacheable (materialize s d name ino).2 d
      · have heq : (lookupLocked s d name).2 =
            (materialize s d name ino).2.setEntry d
              { (materialize s d name ino).2.entry d with
                cache := assocSet ((materialize s d name ino).2.entry d).cache
                  name (materialize s d name ino).1 } := by
          simp only [lookupLocked, hc, hbl, hca, if_true]
        rw [heq, setEntry_entries_length, materialize_entries_length]
        exact Nat.le_succ _
      · have heq : (lookupLocked s d name).2 = (materialize s d name ino).2 := by
          simp only [lookupLocked, hc, hbl, hca]
          simp
        rw [heq, materialize_entries_length]
        exact Nat.le_succ _

theorem setEntry_cache_only_inode (s : State) (d : EntryId)
    (ch : List (String × EntryId)) (i : EntryId) :
    ((s.setEntry d { s.entry d with cache := ch }).entry i).inode =
      (s.entry i).inode := by
  by_cases hi : i = d
  · subst hi
    rcases Nat.lt_or_ge i s.entries.length with hlt | hge
    · rw [entry_setEntry_self hlt]
    · rw [setEntry_cache_d_oor hge]
  · rw [entry_setEntry_other hi]

theorem lookupLocked_inodes (s : State) (d : EntryId) (name : String) :
    (lookupLocked s d name).2.inodes = s.inodes := by
  cases hc : assocGet (s.entry d).cache name with
  | some c => simp only [lookupLocked, hc]
  | none =>
    cases hb : assocGet (s.inode (s.entry d).inode).children name with
    | none => simp only [lookupLocked, hc, backendLookup, hb]
    | some ino =>
      have hbl : backendLookup s d name =
          (.ok (materialize s d name ino).1, (materialize s d name ino).2) := by
        simp only [backendLookup, hb]
      by_cases hca : dirCacheable (materialize s d name ino).2 d
      · simp only [lookupLocked, hc, hbl, hca, if_true]
        rfl
      · simp only [lookupLocked, hc, hbl, hca]
        simp only [Bool.false_eq_true, if_false]
        rfl

theorem inodes_eq_inode {s t : State} (h : t.inodes = s.inodes) (j : InodeId) :
    t.inode j = s.inode j := by
  simp [State.inode, h]

theorem lookupLocked_entry_d (s : State) (d : EntryId) (name : String)
    (hd : d < s.entries.length) :
    (((lookupLocked s d name).2.entry d).kind = (s.entry d).kind) ∧
    (((lookupLocked s d name).2.entry d).ref = (s.entry d).ref) ∧
    (((lookupLocked s d name).2.entry d).inode = (s.entry d).inode) := by
  cases hc : assocGet (s.entry d).cache name with
  | some c =>
    have heq : (lookupLocked s d name).2 = s := by
      simp only [lookupLocked, hc]
    rw [heq]
    exact ⟨rfl, rfl, rfl⟩
  | none =>
    cases hb : assocGet (s.inode (s.entry d).inode).children name with
    | none =>
      have heq : (lookupLocked s d name).2 = s := by
        simp only [lookupLocked, hc, backendLookup, hb]
      rw [heq]
      exact ⟨rfl, rfl, rfl⟩
    | some ino =>
      have hbl : backendLookup s d name =
          (.ok (materialize s d name ino).1, (materialize s d name ino).2) := by
        simp only [backendLookup, hb]
      by_cases hca : dirCacheable (materialize s d name ino).2 d
      · have heq : (lookupLocked s d name).2 =
            (materialize s d name ino).2.setEntry d
              { (materialize s d name ino).2.entry d with
                cache := assocSet ((materialize s d name ino).2.entry d).cache
                  name (materialize s d name ino).1 } := by
          simp only [lookupLocked, hc, hbl, hca, if_true]
        rw [heq]
        have h1 := setEntry_cache_only_ref (materialize s d name ino).2 d
          (assocSet ((materialize s d name ino).2.entry d).cache name
            (materialize s d name ino).1) d
        have h2 := setEntry_cache_only_inode (materialize s d name ino).2 d
          (assocSet ((materialize s d name ino).2.entry d).cache name
            (materialize s d name ino).1) d
        rw [h1.1, h1.2.1, h2, materialize_entry_lt hd]
        exact ⟨rfl, rfl, rfl⟩
      · have heq : (lookupLocked s d name).2 = (materialize s d name ino).2 := by
          simp only [lookupLocked, hc, hbl, hca]
          simp
        rw [heq, materialize_entry_lt hd]
        exact ⟨rfl, rfl, rfl⟩

/-- C6.  `unlink(n, is_dir)` on a directory `d`: (first conjunct) when `n`
is absent from both the dentry cache and the backend, the resolution fails
with `ENOENT` and nothing changes; (second conjunct, given the resolution
of `n` to `e`) the `is_dir` flag is checked against `e`'s variant —
`EISDIR` for a directory with `is_dir = false`, `ENOTDIR` for a file with
`is_dir = true` — and when the flag matches and the backend `unlink`
succeeds, the call returns `Ok(())`, `n`'s binding is gone from `d`'s
cache, every other binding of `d` is untouched, and if `e` was a directory
then the cache of every entry of `e`'s cached subtree is cleared
(`forget`). -/
theorem c6_unlink_contract (s : State) (d : EntryId) (name : String)
    (isDir : Bool) (hwf : wfB s = true) (hv : verifyEntryName name = .ok ())
    (hdk : (s.entry d).kind = .dir) :
    (assocGet (s.entry d).cache name = none →
      assocGet (s.inode (s.entry d).inode).children name = none →
      dirUnlink s d name isDir = (.error .ENOENT, s)) ∧
    (∀ e s1, lookupLocked s d name = (.ok e, s1) →
      ((s1.entry e).kind = .dir → isDir = false →
        dirUnlink s d name isDir = (.error .EISDIR, s1)) ∧
      ((s1.entry e).kind = .file → isDir = true →
        dirUnlink s d name isDir = (.error .ENOTDIR, s1)) ∧
      (((s1.entry e).kind = .dir ↔ isDir = true) →
        ∀ s2, backendUnlink s1 d name = (.ok (), s2) →
          (dirUnlink s d name isDir).1 = .ok () ∧
          assocGet (((dirUnlink s d name isDir).2).entry d).cache name = none ∧
          (∀ m, m ≠ name →
            assocGet (((dirUnlink s d name isDir).2).entry d).cache m =
              assocGet (s1.entry d).cache m) ∧
          ((s1.entry e).kind = .dir →
            ∀ x, InSubtree s1 e x →
              (((dirUnlink s d name isDir).2).entry x).cache = []))) := by
  have hdlen : d < s.entries.length := by
    by_contra hge
    rw [entry_out_of_range (Nat.le_of_not_lt hge)] at hdk
    exact absurd hdk (by decide)
  constructor
  · intro hc hb
    have hl : lookupLocked s d name = (.error .ENOENT, s) := by
      simp only [lookupLocked, hc, backendLookup, hb]
    simp only [dirUnlink, hv, hl]
  · intro e s1 hl
    have hwf1 : CacheWF s1 := by
      have h := @lookupLocked_cacheWF s d name (wf_cacheWF hwf) hdk
      rw [hl] at h
      exact h
    have hlen1 : s.entries.length ≤ s1.entries.length := by
      have h := lookupLocked_length_ge s d name
      rw [hl] at h
      exact h
    have hd1len : d < s1.entries.length := Nat.lt_of_lt_of_le hdlen hlen1
    refine ⟨?_, ?_, ?_⟩
    · intro hk hi
      simp only [dirUnlink, hv, hl]
      rw [if_pos ⟨hk, hi⟩]
    · intro hk hi
      have hcond1 : ¬((s1.entry e).kind = NodeKind.dir ∧ isDir = false) := by
        intro hcon
        rw [hk] at hcon
        exact absurd hcon.1 (by decide)
      simp only [dirUnlink, hv, hl]
      rw [if_neg hcond1, if_pos ⟨hk, hi⟩]
    · intro hmatch s2 hbu
      have hcond1 : ¬((s1.entry e).kind = NodeKind.dir ∧ isDir = false) := by
        intro hcon
        have := hmatch.mp hcon.1
        rw [this] at hcon
        exact absurd hcon.2 (by decide)
      have hcond2 : ¬((s1.entry e).kind = NodeKind.file ∧ isDir = true) := by
        intro hcon
        have := hmatch.mpr hcon.2
        rw [this] at hcon
        exact absurd hcon.1 (by decide)
      have hres : dirUnlink s d name isDir = (.ok (), forgetEntryOp s2 d name) := by
        simp only [dirUnlink, hv, hl]
        rw [if_neg hcond1, if_neg hcond2, hbu]
      rw [hres]
      have hents2 : s2.entries = s1.entries := by
        have := backendUnlink_entries s1 d name
        rw [hbu] at this
        exact this
      have hwf2 : CacheWF s2 := cacheWF_entries_eq hents2 hwf1
      have hent2 : ∀ j, s2.entry j = s1.entry j := entries_eq_entry hents2
      refine ⟨rfl, ?_⟩
      rcases lookupLocked_ok_binding hl with hbind | ⟨hbind, hecache⟩
      · -- the name is bound in the cache; `forget_entry` removes and forgets
        have hbind2 : assocGet (s2.entry d).cache name = some e := by
          rw [hent2 d]
          exact hbind
        have hde : d < e := hwf1.1 d (name, e) (assocGet_mem hbind)
        have hd2len : d < s2.entries.length := by
          rw [hents2]
          exact hd1len
        have hs3 : forgetEntryOp s2 d name =
            (if ((s2.setEntry d { s2.entry d with
                cache := assocRemove (s2.entry d).cache name }).entry e).kind
              = NodeKind.dir then
              dirForget (s2.setEntry d { s2.entry d with
                cache := assocRemove (s2.entry d).cache name }) e
            else (s2.setEntry d { s2.entry d with
                cache := assocRemove (s2.entry d).cache name })) := by
          simp only [forgetEntryOp, hbind2]
        have hwf3 : CacheWF (s2.setEntry d { s2.entry d with
            cache := assocRemove (s2.entry d).cache name }) :=
          remove_binding_cacheWF hwf2
        have hkind3 : ((s2.setEntry d { s2.entry d with
            cache := assocRemove (s2.entry d).cache name }).entry e).kind =
            (s1.entry e).kind := by
          rw [(setEntry_cache_only_ref s2 d _ e).2.1, hent2 e]
        have hcache3d : ((s2.setEntry d { s2.entry d with
            cache := assocRemove (s2.entry d).cache name }).entry d).cache =
            assocRemove (s1.entry d).cache name := by
          rw [entry_setEntry_self hd2len, hent2 d]
        by_cases hke : (s1.entry e).kind = NodeKind.dir
        · -- directory: remove the binding, then forget the subtree
          rw [hs3, if_pos (hkind3.trans hke ▸ rfl)]
          have hforget_d : ((dirForget (s2.setEntry d { s2.entry d with
              cache := assocRemove (s2.entry d).cache name }) e).entry d) =
              ((s2.setEntry d { s2.entry d with
                cache := assocRemove (s2.entry d).cache name }).entry d) :=
            forgetF_below _ _ e d hwf3.1 hde
          refine ⟨?_, ?_, ?_⟩
          · rw [hforget_d, hcache3d]
            exact assocGet_remove_self _ _ (hwf1.2.2.2.1 d)
          · intro m hm
            rw [hforget_d, hcache3d]
            exact assocGet_remove_other _ _ _ hm
          · intro _ x hx
            have hx2 : InSubtree s2 e x := inSubtree_entries_eq hents2 hx
            have hx3 : InSubtree (s2.setEntry d { s2.entry d with
                cache := assocRemove (s2.entry d).cache name }) e x := by
              refine inSubtree_transfer (fun y hy => ?_) hx2
              have hye : e ≤ y := inSubtree_ge hwf2.1 hy
              exact entry_setEntry_other (Nat.lt_of_lt_of_le hde hye).ne'
            exact forgetF_clear _ _ e x hwf3.1 hwf3.2.1 hwf3.2.2.1
              hwf3.2.2.2.1 (Nat.le_add_left _ _) hx3
        · -- file: remove the binding only
          have hkf : (s1.entry e).kind = NodeKind.file := by
            cases hkk : (s1.entry e).kind with
            | file => rfl
            | dir => exact absurd hkk hke
          rw [hs3, if_neg (fun hcon => hke (hkind3 ▸ hcon))]
          refine ⟨?_, ?_, ?_⟩
          · rw [hcache3d]
            exact assocGet_remove_self _ _ (hwf1.2.2.2.1 d)
          · intro m hm
            rw [hcache3d]
            exact assocGet_remove_other _ _ _ hm
          · intro hdir
            exact absurd hdir hke
      · -- non-cacheable miss: nothing is cached, the fresh dentry has an
        -- empty cache and `forget_entry` is a no-op
        have hbind2 : assocGet (s2.entry d).cache name = none := by
          rw [hent2 d]
          exact hbind
        have hs4 : forgetEntryOp s2 d name = s2 := by
          simp only [forgetEntryOp, hbind2]
        rw [hs4]
        refine ⟨?_, ?_, ?_⟩
        · rw [hent2 d]
          exact hbind
        · intro m _
          rw [hent2 d]
        · intro _ x hx
          have hxe : x = e := by
            by_cases hne : x = e
            · exact hne
            · obtain ⟨q, hq, _⟩ := inSubtree_decompose hx hne
              rw [hecache] at hq
              exact absurd hq (List.not_mem_nil q)
          rw [hxe, hent2 e]
          exact hecache

/-- C6, witness: in `S1`, unlinking the absent `zz` gives `ENOENT`;
unlinking directory `a` with `is_dir = false` gives `EISDIR`; unlinking
file `x` with `is_dir = true` gives `ENOTDIR`; unlinking the empty
directory `d` with `is_dir = true` succeeds, removes the binding and leaves
the sibling binding for `a` untouched. -/
theorem c6_unlink_contract_witness :
    dirUnlink S1 0 "zz" false = (.error .ENOENT, S1) ∧
    dirUnlink S1 0 "a" false = (.error .EISDIR, S1) ∧
    dirUnlink S1 0 "x" true = (.error .ENOTDIR, S1) ∧
    ((dirUnlink S1 0 "d" true).1 = .ok () ∧
      assocGet ((dirUnlink S1 0 "d" true).2.entry 0).cache "d" = none ∧
      assocGet ((dirUnlink S1 0 "d" true).2.entry 0).cache "a" =
        assocGet (S1.entry 0).cache "a") := by
  refine ⟨?_, ?_, ?_, ?_⟩
  · exact (c6_unlink_contract S1 0 "zz" false (by decide) (by decide)
      (by decide)).1 (by decide) (by decide)
  · exact ((c6_unlink_contract S1 0 "a" false (by decide) (by decide)
      (by decide)).2 1 S1 (by decide)).1 (by decide) rfl
  · exact ((c6_unlink_contract S1 0 "x" true (by decide) (by decide)
      (by decide)).2 3 S1 (by decide)).2.1 (by decide) rfl
  · have h := ((c6_unlink_contract S1 0 "d" true (by decide) (by decide)
      (by decide)).2 2 S1 (by decide)).2.2 (by decide)
      (backendUnlink S1 0 "d").2 (by decide)
    exact ⟨h.1, h.2.1, h.2.2.1 "a" (by decide)⟩

/-! ### C2 — same-name rename in the same directory (amended) -/

/-- A name is observable in directory `d` exactly when `DirNode::lookup`
would succeed on it: through the cache or the backend for a cacheable
directory, through the backend alone otherwise. -/
def nameVisible (s : State) (d : EntryId) (m : String) : Bool :=
  if dirCacheable s d then
    (assocGet (s.entry d).cache m).isSome ||
      (assocGet (s.inode (s.entry d).inode).children m).isSome
  else (assocGet (s.inode (s.entry d).inode).children m).isSome

theorem forgetEntryOp_inodes (s : State) (d : EntryId) (name : String) :
    (forgetEntryOp s d name).inodes = s.inodes := by
  cases hc : assocGet (s.entry d).cache name with
  | none => simp only [forgetEntryOp, hc]
  | some c =>
    simp only [forgetEntryOp, hc]
    by_cases hk : ((s.setEntry d { s.entry d with
        cache := assocRemove (s.entry d).cache name }).entry c).kind = NodeKind.dir
    · rw [if_pos hk]
      exact (forgetF_erased _ _ _).1
    · rw [if_neg hk]
      rfl

/-- C2, amended.  With `d` containing an entry named `a` in the backend and
the resolved entry not a non-empty directory, `rename(a, d, a)` on the same
directory returns `Ok(())`; the backend (every inode, in particular `d`'s
contents) is untouched, the name `a` is no longer cached, and every name
observable in `d` before the call is observable after it and vice versa —
the rename is a no-op up to eviction of the cached dentry. -/
theorem c2_rename_same_noop (s : State) (d : EntryId) (a : String)
    (e e2 : EntryId) (s1 s2 : State) (ino : InodeId)
    (hwf : wfB s = true) (hdk : (s.entry d).kind = .dir)
    (hv : verifyEntryName a = .ok ())
    (hb : assocGet (s.inode (s.entry d).inode).children a = some ino)
    (hl : lookupLocked s d a = (.ok e, s1))
    (hl2 : lookupLocked s1 d a = (.ok e2, s2))
    (hsame : (s2.entry e).node_type = (s2.entry e2).node_type)
    (hnotne : ¬((s2.entry e).node_type = NodeType.directory ∧
      (s2.entry e2).kind = NodeKind.dir ∧ backendHasChildren s2 e2 = true)) :
    (dirRename s d a d a).1 = .ok () ∧
    (dirRename s d a d a).2.inodes = s.inodes ∧
    assocGet ((dirRename s d a d a).2.entry d).cache a = none ∧
    (∀ m, nameVisible (dirRename s d a d a).2 d m = nameVisible s d m) := by
  have hdlen : d < s.entries.length := by
    by_contra hge
    rw [entry_out_of_range (Nat.le_of_not_lt hge)] at hdk
    exact absurd hdk (by decide)
  have hwf1 : CacheWF s1 := by
    have h := @lookupLocked_cacheWF s d a (wf_cacheWF hwf) hdk
    rw [hl] at h
    exact h
  have hlen1 : s.entries.length ≤ s1.entries.length := by
    have h := lookupLocked_length_ge s d a
    rw [hl] at h
    exact h
  have hd1len : d < s1.entries.length := Nat.lt_of_lt_of_le hdlen hlen1
  have hinodes1 : s1.inodes = s.inodes := by
    have h := lookupLocked_inodes s d a
    rw [hl] at h
    exact h
  have hinodes2 : s2.inodes = s.inodes := by
    have h := lookupLocked_inodes s1 d a
    rw [hl2] at h
    exact h.trans hinodes1
  have hentry1 := lookupLocked_entry_d s d a hdlen
  rw [hl] at hentry1
  have hd1k : (s1.entry d).kind = .dir := hentry1.1.trans hdk
  have hentry2 := lookupLocked_entry_d s1 d a hd1len
  rw [hl2] at hentry2
  have hino2 : (s2.entry d).inode = (s.entry d).inode :=
    hentry2.2.2.trans hentry1.2.2
  have hwf2 : CacheWF s2 := by
    have h := @lookupLocked_cacheWF s1 d a hwf1 hd1k
    rw [hl2] at h
    exact h
  have hlen2 : s1.entries.length ≤ s2.entries.length := by
    have h := lookupLocked_length_ge s1 d a
    rw [hl2] at h
    exact h
  have hd2len : d < s2.entries.length := Nat.lt_of_lt_of_le hd1len hlen2
  -- the backend sees the same file as source and destination: a no-op
  have hb2 : assocGet (s2.inode (s2.entry d).inode).children a = some ino := by
    rw [hino2, inodes_eq_inode hinodes2]
    exact hb
  have hbr : backendRename s2 d a d a = (.ok (), s2) := by
    simp only [backendRename, hb2]
    simp
  -- the pre-checks pass
  have hcheck : (if (s2.entry e).node_type = NodeType.directory then
        (if (s2.entry e2).kind = NodeKind.dir ∧ backendHasChildren s2 e2 = true then
          some VfsError.ENOTEMPTY else none)
      else if (s2.entry e2).node_type = NodeType.directory then
        some VfsError.EISDIR
      else none) = none := by
    by_cases hdir : (s2.entry e).node_type = NodeType.directory
    · rw [if_pos hdir]
      rw [if_neg (fun hcon => hnotne ⟨hdir, hcon.1, hcon.2⟩)]
    · rw [if_neg hdir]
      rw [if_neg (fun hcon => hdir (hsame.trans hcon))]
  have hres : dirRename s d a d a =
      (.ok (), forgetEntryOp (forgetEntryOp s2 d a) d a) := by
    simp only [dirRename, hv, hl, hl2, hbr]
    rw [hcheck]
  rw [hres]
  -- states after the two cache evictions
  rcases lookupLocked_ok_binding hl2 with hbind | ⟨hbind, _⟩
  · -- the binding for `a` is present in `s2`: the first eviction removes it
    -- and forgets the subtree, the second is a no-op
    have hde : d < e2 := hwf2.1 d (a, e2) (assocGet_mem hbind)
    have hs3 : forgetEntryOp s2 d a =
        (if ((s2.setEntry d { s2.entry d with
            cache := assocRemove (s2.entry d).cache a }).entry e2).kind
          = NodeKind.dir then
          dirForget (s2.setEntry d { s2.entry d with
            cache := assocRemove (s2.entry d).cache a }) e2
        else (s2.setEntry d { s2.entry d with
            cache := assocRemove (s2.entry d).cache a })) := by
      simp only [forgetEntryOp, hbind]
    have hrm := s2.setEntry d { s2.entry d with
        cache := assocRemove (s2.entry d).cache a }
    -- facts about the entry `d` after the first eviction
    have hcache3 : ∀ t, (t = forgetEntryOp s2 d a) →
        (t.entry d).cache = assocRemove (s2.entry d).cache a ∧
        (t.entry d).inode = (s2.entry d).inode ∧
        t.inodes = s2.inodes := by
      intro t ht
      rw [hs3] at ht
      by_cases hk : ((s2.setEntry d { s2.entry d with
          cache := assocRemove (s2.entry d).cache a }).entry e2).kind
          = NodeKind.dir
      · rw [if_pos hk] at ht
        have hwf3 : CacheWF (s2.setEntry d { s2.entry d with
            cache := assocRemove (s2.entry d).cache a }) :=
          remove_binding_cacheWF hwf2
        have hbelow : (t.entry d) = ((s2.setEntry d { s2.entry d with
            cache := assocRemove (s2.entry d).cache a }).entry d) := by
          rw [ht]
          exact forgetF_below _ _ e2 d hwf3.1 hde
        refine ⟨?_, ?_, ?_⟩
        · rw [hbelow, entry_setEntry_self hd2len]
        · rw [hbelow, entry_setEntry_self hd2len]
        · rw [ht]
          exact ((forgetF_erased _ _ _).1)
      · rw [if_neg hk] at ht
        refine ⟨?_, ?_, ?_⟩
        · rw [ht, entry_setEntry_self hd2len]
        · rw [ht, entry_setEntry_self hd2len]
        · rw [ht]
          rfl
    obtain ⟨hc3, hi3, hin3⟩ := hcache3 (forgetEntryOp s2 d a) rfl
    have hnone3 : assocGet ((forgetEntryOp s2 d a).entry d).cache a = none := by
      rw [hc3]
      exact assocGet_remove_self _ _ (hwf2.2.2.2.1 d)
    have hs4 : forgetEntryOp (forgetEntryOp s2 d a) d a = forgetEntryOp s2 d a := by
      generalize hgen : forgetEntryOp s2 d a = t at hnone3 ⊢
      simp only [forgetEntryOp, hnone3]
    rw [hs4]
    refine ⟨rfl, hin3.trans hinodes2, hnone3, ?_⟩
    intro m
    -- the cache of `d` lost exactly the binding for `a`; the backend and
    -- the cacheable flag are untouched
    have hvis_inode : (forgetEntryOp s2 d a).inode ((forgetEntryOp s2 d a).entry d).inode =
        s.inode (s.entry d).inode := by
      rw [hi3, hino2, inodes_eq_inode (hin3.trans hinodes2)]
    have hcach_flag : dirCacheable (forgetEntryOp s2 d a) d = dirCacheable s d := by
      simp only [dirCacheable]
      rw [hvis_inode]
    by_cases hm : m = a
    · subst hm
      simp only [nameVisible, hcach_flag, hvis_inode, hnone3, hb]
      by_cases hca : dirCacheable s d
      · simp [hca, hb]
      · simp [hca, hb]
    · -- other names: the cache binding survives both the memoization and
      -- the eviction
      have hc1 : assocGet ((forgetEntryOp s2 d a).entry d).cache m =
          assocGet (s.entry d).cache m := by
        rw [hc3, assocGet_remove_other _ _ _ hm]
        -- cache of `d` in `s2` agrees with `s` away from `a`
        have h1 := lookupLocked_cache_d s d a
        rw [hl] at h1
        have h2 := lookupLocked_cache_d s1 d a
        rw [hl2] at h2
        rcases h2 with h2 | ⟨_, c2, h2⟩ <;> rcases h1 with h1 | ⟨_, c1, h1⟩
        · rw [h2, h1]
        · rw [h2, h1, assocGet_set_other _ _ _ _ hm]
        · rw [h2, assocGet_set_other _ _ _ _ hm, h1]
        · rw [h2, assocGet_set_other _ _ _ _ hm, h1, assocGet_set_other _ _ _ _ hm]
      simp only [nameVisible, hcach_flag, hvis_inode, hc1]
  · -- no binding: both evictions are no-ops
    have hs4 : forgetEntryOp (forgetEntryOp s2 d a) d a = s2 := by
      have h1 : forgetEntryOp s2 d a = s2 := by
        simp only [forgetEntryOp, hbind]
      rw [h1, h1]
    rw [hs4]
    refine ⟨rfl, hinodes2, hbind, ?_⟩
    intro m
    have hvis_inode : s2.inode ((s2.entry d)).inode = s.inode (s.entry d).inode := by
      rw [hino2, inodes_eq_inode hinodes2]
    have hcach_flag : dirCacheable s2 d = dirCacheable s d := by
      simp only [dirCacheable]
      rw [hvis_inode]
    by_cases hm : m = a
    · subst hm
      simp only [nameVisible, hcach_flag, hvis_inode, hbind, hb]
      by_cases hca : dirCacheable s d
      · simp [hca, hb]
      · simp [hca, hb]
    · have hc1 : assocGet (s2.entry d).cache m = assocGet (s.entry d).cache m := by
        have h1 := lookupLocked_cache_d s d a
        rw [hl] at h1
        have h2 := lookupLocked_cache_d s1 d a
        rw [hl2] at h2
        rcases h2 with h2 | ⟨_, c2, h2⟩ <;> rcases h1 with h1 | ⟨_, c1, h1⟩
        · rw [h2, h1]
        · rw [h2, h1, assocGet_set_other _ _ _ _ hm]
        · rw [h2, assocGet_set_other _ _ _ _ hm, h1]
        · rw [h2, assocGet_set_other _ _ _ _ hm, h1, assocGet_set_other _ _ _ _ hm]
      simp only [nameVisible, hcach_flag, hvis_inode, hc1]

/-- C2, witness: in `S1`, `rename(x, /, x)` on the regular file `x` is a
no-op up to cache eviction: it returns `Ok(())`, the backend is untouched,
the binding for `x` is evicted, and the observable names (for example `x`
itself and its sibling `a`) are unchanged. -/
theorem c2_rename_same_noop_witness :
    (dirRename S1 0 "x" 0 "x").1 = .ok () ∧
    (dirRename S1 0 "x" 0 "x").2.inodes = S1.inodes ∧
    assocGet ((dirRename S1 0 "x" 0 "x").2.entry 0).cache "x" = none ∧
    nameVisible (dirRename S1 0 "x" 0 "x").2 0 "x" = nameVisible S1 0 "x" ∧
    nameVisible (dirRename S1 0 "x" 0 "x").2 0 "a" = nameVisible S1 0 "a" := by
  have h := c2_rename_same_noop S1 0 "x" 3 3 S1 S1 4 (by decide) (by decide)
    (by decide) (by decide) (by decide) (by decide) (by decide) (by decide)
  exact ⟨h.1, h.2.1, h.2.2.1, h.2.2.2 "x", h.2.2.2 "a"⟩

/-! ### C3 — the cached round-trip (amended)

`resolve(absolute_path(loc))` returns `loc` itself — with the heap
untouched — for every location reachable from the namespace root by fully
cached resolution steps.  The development below relates
`Location::absolute_path` (name collection through parent chains and mount
locations) to the component walk of `FsResolver::resolve`. -/

theorem mount_out_of_range {s : State} {m : MountId}
    (h : s.mounts.length ≤ m) : s.mount m = default := by
  show s.mounts.getD m default = default
  exact List.getD_eq_default _ _ h

theorem wf_mounts_pos {s : State} (h : wfB s = true) : 0 < s.mounts.length := by
  simp only [wfB, Bool.and_eq_true] at h
  exact of_decide_eq_true h.1.1.1.1

theorem wfB_mountOk {s : State} (h : wfB s = true) {m : MountId}
    (hm : m < s.mounts.length) : mountOkB s m = true := by
  simp only [wfB, Bool.and_eq_true, List.all_eq_true, List.mem_range] at h
  exact h.1.2 m hm

/-- The unique-roots clause of `wfB`: distinct mounts have distinct root
dentries. -/
theorem wf_unique_roots {s : State} (h : wfB s = true) {m1 m2 : MountId}
    (h1 : m1 < s.mounts.length) (h2 : m2 < s.mounts.length)
    (hr : (s.mount m1).root = (s.mount m2).root) : m1 = m2 := by
  simp only [wfB, Bool.and_eq_true, List.all_eq_true, List.mem_range] at h
  have := h.2 m1 h1 m2 h2
  simp only [Bool.or_eq_true, bne_iff_ne, beq_iff_eq] at this
  rcases this with hne | he
  · exact absurd hr hne
  · exact he

/-- The per-mount clauses of `wfB`: the root dentry is an in-range directory
with an empty reference; the mount location decreases and stays in range
(or the mount is the namespace root); a mount stacked on the root has a
larger identifier. -/
theorem wf_mount_root_lt {s : State} (h : wfB s = true) {m : MountId}
    (hm : m < s.mounts.length) : (s.mount m).root < s.entries.length := by
  have := wfB_mountOk h hm
  simp only [mountOkB, Bool.and_eq_true] at this
  exact of_decide_eq_true this.1.1.1.1

theorem wf_mount_root_ref {s : State} (h : wfB s = true) {m : MountId}
    (hm : m < s.mounts.length) : (s.entry (s.mount m).root).ref = ⟨none, ""⟩ := by
  have := wfB_mountOk h hm
  simp only [mountOkB, Bool.and_eq_true, beq_iff_eq] at this
  exact this.1.1.1.2

theorem wf_mount_root_kind {s : State} (h : wfB s = true) {m : MountId}
    (hm : m < s.mounts.length) : (s.entry (s.mount m).root).kind = .dir := by
  have := wfB_mountOk h hm
  simp only [mountOkB, Bool.and_eq_true, beq_iff_eq] at this
  exact this.1.1.2

theorem wf_mount_loc {s : State} (h : wfB s = true) {m : MountId}
    {pm : MountId} {pe : EntryId} (hloc : (s.mount m).location = some (pm, pe)) :
    pm < m ∧ pe < s.entries.length ∧ m < s.mounts.length := by
  rcases Nat.lt_or_ge m s.mounts.length with hm | hm
  · have := wfB_mountOk h hm
    simp only [mountOkB, Bool.and_eq_true] at this
    have h2 := this.1.2
    rw [hloc] at h2
    simp only [Bool.and_eq_true, decide_eq_true_eq] at h2
    exact ⟨h2.1, h2.2, hm⟩
  · rw [mount_out_of_range hm] at hloc
    exact absurd hloc (by simp [default])

theorem wf_root_mount_loc {s : State} (h : wfB s = true) :
    (s.mount 0).location = none := by
  cases hloc : (s.mount 0).location with
  | none => rfl
  | some pr =>
    exact absurd (wf_mount_loc h (by rw [hloc])).1 (Nat.not_lt_zero pr.1)

theorem wf_mount_stack {s : State} (h : wfB s = true) {m : MountId}
    (hm : m < s.mounts.length) {m1 : MountId}
    (hmnt : (s.entry (s.mount m).root).mnt = some m1) : m < m1 := by
  have := wfB_mountOk h hm
  simp only [mountOkB, Bool.and_eq_true] at this
  have h2 := this.2
  rw [hmnt] at h2
  exact of_decide_eq_true h2

/-- The entry-mount coherence clause of `wfB`: a mount stacked on entry `i`
is in range, is located at `i` inside a parent mount whose root is the top
of `i`'s parent chain. -/
theorem wf_entry_mnt {s : State} (h : wfB s = true) {i : EntryId}
    (hi : i < s.entries.length) {m : MountId} (hmnt : (s.entry i).mnt = some m) :
    m < s.mounts.length ∧
    ∃ pm, (s.mount m).location = some (pm, i) ∧ pm < s.mounts.length ∧
      (s.mount pm).root = topOf s i := by
  have he := wfB_entryOk h hi
  simp only [entryOkB, Bool.and_eq_true] at he
  have h2 := he.2
  rw [hmnt] at h2
  simp only [Bool.and_eq_true] at h2
  rcases hloc : (s.mount m).location with _ | ⟨pm, pe⟩
  · rw [hloc] at h2
    simp at h2
  · rw [hloc] at h2
    simp only [Bool.and_eq_true, beq_iff_eq, decide_eq_true_eq] at h2
    obtain ⟨hmlen, ⟨hpei, hpmlen⟩, hroot⟩ := h2
    subst hpei
    exact ⟨hmlen, pm, rfl, hpmlen, hroot⟩

/-! #### The top of a parent chain -/

theorem topOfF_stable {s : State} (hpd : ParentDec s) :
    ∀ e f1 f2, e < f1 → e < f2 → topOfF f1 s e = topOfF f2 s e := by
  intro e
  induction e using Nat.strong_induction_on with
  | _ e ih =>
    intro f1 f2 h1 h2
    obtain ⟨g1, rfl⟩ : ∃ g, f1 = g + 1 :=
      ⟨f1 - 1, (Nat.succ_pred_eq_of_pos (Nat.lt_of_le_of_lt (Nat.zero_le e) h1)).symm⟩
    obtain ⟨g2, rfl⟩ : ∃ g, f2 = g + 1 :=
      ⟨f2 - 1, (Nat.succ_pred_eq_of_pos (Nat.lt_of_le_of_lt (Nat.zero_le e) h2)).symm⟩
    simp only [topOfF]
    cases hp : (s.entry e).ref.parent with
    | none => rfl
    | some p =>
      have hpe : p < e := hpd _ _ hp
      exact ih p hpe g1 g2 (Nat.lt_of_lt_of_le hpe (Nat.lt_succ_iff.mp h1))
        (Nat.lt_of_lt_of_le hpe (Nat.lt_succ_iff.mp h2))

theorem topOf_parent {s : State} (hpd : ParentDec s) {e p : EntryId}
    (hp : (s.entry e).ref.parent = some p) : topOf s e = topOf s p := by
  show topOfF (e + 1) s e = topOfF (p + 1) s p
  have hpe : p < e := hpd _ _ hp
  simp only [topOfF, hp]
  exact topOfF_stable hpd p e (p + 1) hpe (Nat.lt_succ_self p)

theorem topOf_none {s : State} {e : EntryId}
    (hp : (s.entry e).ref.parent = none) : topOf s e = e := by
  show topOfF (e + 1) s e = e
  simp only [topOfF, hp]

/-! #### `collect_absolute_path`: names along the parent chain -/

/-- The names on `e`'s parent chain, leaf first (`e + 1` steps of fuel
suffice under `ParentDec`). -/
def absNames (s : State) (e : EntryId) : List String :=
  collectAbsF (e + 1) s e []

theorem collectAbsF_acc {s : State} :
    ∀ fuel e acc, collectAbsF fuel s e acc = acc ++ collectAbsF fuel s e [] := by
  intro fuel
  induction fuel with
  | zero => intro e acc; simp [collectAbsF]
  | succ f ih =>
    intro e acc
    cases hp : (s.entry e).ref.parent with
    | none => simp [collectAbsF, hp]
    | some p =>
      simp only [collectAbsF, hp]
      rw [ih p (acc ++ [(s.entry e).ref.name]),
        ih p ([] ++ [(s.entry e).ref.name])]
      simp

theorem collectAbsF_stable {s : State} (hpd : ParentDec s) :
    ∀ e f1 f2, e < f1 → e < f2 →
      collectAbsF f1 s e [] = collectAbsF f2 s e [] := by
  intro e
  induction e using Nat.strong_induction_on with
  | _ e ih =>
    intro f1 f2 h1 h2
    obtain ⟨g1, rfl⟩ : ∃ g, f1 = g + 1 :=
      ⟨f1 - 1, (Nat.succ_pred_eq_of_pos (Nat.lt_of_le_of_lt (Nat.zero_le e) h1)).symm⟩
    obtain ⟨g2, rfl⟩ : ∃ g, f2 = g + 1 :=
      ⟨f2 - 1, (Nat.succ_pred_eq_of_pos (Nat.lt_of_le_of_lt (Nat.zero_le e) h2)).symm⟩
    cases hp : (s.entry e).ref.parent with
    | none => simp [collectAbsF, hp]
    | some p =>
      have hpe : p < e := hpd _ _ hp
      simp only [collectAbsF, hp]
      rw [collectAbsF_acc g1 p, collectAbsF_acc g2 p,
        ih p hpe g1 g2 (Nat.lt_of_lt_of_le hpe (Nat.lt_succ_iff.mp h1))
          (Nat.lt_of_lt_of_le hpe (Nat.lt_succ_iff.mp h2))]

theorem collectAbsF_eq_absNames {s : State} (hpd : ParentDec s) {e : EntryId}
    {fuel : Nat} (h : e < fuel) (acc : List String) :
    collectAbsF fuel s e acc = acc ++ absNames s e := by
  rw [collectAbsF_acc fuel e acc,
    collectAbsF_stable hpd e fuel (e + 1) h (Nat.lt_succ_self e)]
  rfl

theorem absNames_parent {s : State} (hpd : ParentDec s) {e p : EntryId}
    (hp : (s.entry e).ref.parent = some p) :
    absNames s e = (s.entry e).ref.name :: absNames s p := by
  show collectAbsF (e + 1) s e [] = _
  simp only [collectAbsF, hp]
  rw [collectAbsF_eq_absNames hpd (hpd _ _ hp) ([] ++ [(s.entry e).ref.name])]
  simp

theorem absNames_root {s : State} {e : EntryId}
    (hp : (s.entry e).ref.parent = none) :
    absNames s e = [(s.entry e).ref.name] := by
  show collectAbsF (e + 1) s e [] = _
  simp only [collectAbsF, hp]
  simp

/-! #### `absolute_path`: names through the mount locations -/

/-- The names gathered by `Location::absolute_path`, leaf first
(`loc.mount + 1` rounds of fuel suffice: mount identifiers strictly
decrease along `Mountpoint::location`). -/
def pathNames (s : State) (loc : Location) : List String :=
  absolutePathF (loc.mount + 1) s loc []

theorem absolutePathF_acc {s : State} :
    ∀ fuel loc acc, absolutePathF fuel s loc acc =
      acc ++ absolutePathF fuel s loc [] := by
  intro fuel
  induction fuel with
  | zero => intro loc acc; simp [absolutePathF]
  | succ f ih =>
    intro loc acc
    cases hl : (s.mount loc.mount).location with
    | none =>
      simp only [absolutePathF, hl]
      rw [collectAbsF_acc _ _ acc]
    | some pr =>
      obtain ⟨pm, pe⟩ := pr
      simp only [absolutePathF, hl]
      rw [collectAbsF_acc _ _ acc,
        ih ⟨pm, pe⟩ (acc ++ collectAbsF (s.entries.length + 1) s loc.entry []),
        ih ⟨pm, pe⟩ (collectAbsF (s.entries.length + 1) s loc.entry [])]
      simp

theorem absolutePathF_stable {s : State} (h : wfB s = true) :
    ∀ m e f1 f2, m < f1 → m < f2 →
      absolutePathF f1 s ⟨m, e⟩ [] = absolutePathF f2 s ⟨m, e⟩ [] := by
  intro m
  induction m using Nat.strong_induction_on with
  | _ m ih =>
    intro e f1 f2 h1 h2
    obtain ⟨g1, rfl⟩ : ∃ g, f1 = g + 1 :=
      ⟨f1 - 1, (Nat.succ_pred_eq_of_pos (Nat.lt_of_le_of_lt (Nat.zero_le m) h1)).symm⟩
    obtain ⟨g2, rfl⟩ : ∃ g, f2 = g + 1 :=
      ⟨f2 - 1, (Nat.succ_pred_eq_of_pos (Nat.lt_of_le_of_lt (Nat.zero_le m) h2)).symm⟩
    cases hl : (s.mount (Location.mk m e).mount).location with
    | none => simp only [absolutePathF, hl]
    | some pr =>
      obtain ⟨pm, pe⟩ := pr
      have hpm : pm < m := (wf_mount_loc h hl).1
      simp only [absolutePathF, hl]
      rw [absolutePathF_acc g1 ⟨pm, pe⟩, absolutePathF_acc g2 ⟨pm, pe⟩,
        ih pm hpm pe g1 g2 (Nat.lt_of_lt_of_le hpm (Nat.lt_succ_iff.mp h1))
          (Nat.lt_of_lt_of_le hpm (Nat.lt_succ_iff.mp h2))]

/-- One unfolding of `pathNames`: the names of the entry's parent chain,
then the names of the mount's location. -/
theorem pathNames_eq {s : State} (h : wfB s = true) (loc : Location)
    (he : loc.entry < s.entries.length) :
    pathNames s loc = absNames s loc.entry ++
      (match (s.mount loc.mount).location with
       | none => []
       | some pr => pathNames s ⟨pr.1, pr.2⟩) := by
  cases hl : (s.mount loc.mount).location with
  | none =>
    show absolutePathF (loc.mount + 1) s loc [] = _
    simp only [absolutePathF, hl]
    rw [collectAbsF_eq_absNames (wf_parentDec h)
      (Nat.lt_succ_of_lt he) ([] : List String)]
    simp
  | some pr =>
    obtain ⟨pm, pe⟩ := pr
    have hpm : pm < loc.mount := (wf_mount_loc h hl).1
    show absolutePathF (loc.mount + 1) s loc [] = _
    simp only [absolutePathF, hl]
    rw [collectAbsF_eq_absNames (wf_parentDec h)
      (Nat.lt_succ_of_lt he) ([] : List String),
      absolutePathF_acc loc.mount ⟨pm, pe⟩,
      absolutePathF_stable h pm pe loc.mount (pm + 1) hpm (Nat.lt_succ_self pm)]
    simp [pathNames]

/-- The names of `absolute_path` that survive into the printed path (mount
roots have the empty name and vanish). -/
def cleanNames (s : State) (loc : Location) : List String :=
  (pathNames s loc).filter (fun n => n ≠ "")

/-- A mount-root location's surviving names are exactly those of the
mount's location: the root dentry itself contributes only the empty name. -/
theorem cleanNames_mount_root {s : State} (h : wfB s = true) {m : MountId}
    (hm : m < s.mounts.length) :
    cleanNames s ⟨m, (s.mount m).root⟩ =
      (match (s.mount m).location with
       | none => []
       | some pr => cleanNames s ⟨pr.1, pr.2⟩) := by
  have href := wf_mount_root_ref h hm
  have hparent : (s.entry (s.mount m).root).ref.parent = none := by rw [href]
  have hname : (s.entry (s.mount m).root).ref.name = "" := by rw [href]
  show (pathNames s ⟨m, (s.mount m).root⟩).filter (fun n => n ≠ "") = _
  rw [pathNames_eq h ⟨m, (s.mount m).root⟩ (wf_mount_root_lt h hm),
    absNames_root hparent, hname]
  cases hl : (s.mount m).location with
  | none => simp [hl]
  | some pr => simp [hl, cleanNames]

/-! #### `effective_mountpoint` -/

theorem effectiveMountF_stable {s : State} (h : wfB s = true) :
    ∀ j m f1 f2, m < s.mounts.length → s.mounts.length - m ≤ j →
      s.mounts.length - m ≤ f1 → s.mounts.length - m ≤ f2 →
      effectiveMountF f1 s m = effectiveMountF f2 s m := by
  intro j
  induction j with
  | zero =>
    intro m f1 f2 hm hj _ _
    exact absurd hj (Nat.not_le.mpr (Nat.sub_pos_of_lt hm))
  | succ j ih =>
    intro m f1 f2 hm hj h1 h2
    obtain ⟨g1, rfl⟩ : ∃ g, f1 = g + 1 :=
      ⟨f1 - 1, (Nat.succ_pred_eq_of_pos
        (Nat.lt_of_lt_of_le (Nat.sub_pos_of_lt hm) h1)).symm⟩
    obtain ⟨g2, rfl⟩ : ∃ g, f2 = g + 1 :=
      ⟨f2 - 1, (Nat.succ_pred_eq_of_pos
        (Nat.lt_of_lt_of_le (Nat.sub_pos_of_lt hm) h2)).symm⟩
    cases hmnt : (s.entry (s.mount m).root).mnt with
    | none => simp only [effectiveMountF, hmnt]
    | some m1 =>
      have hlt : m < m1 := wf_mount_stack h hm hmnt
      have hm1 : m1 < s.mounts.length :=
        (wf_entry_mnt h (wf_mount_root_lt h hm) hmnt).1
      have hsub : s.mounts.length - m1 < s.mounts.length - m :=
        Nat.sub_lt_sub_left hm hlt
      have hj1 : s.mounts.length - m1 ≤ j := by omega
      have hg1 : s.mounts.length - m1 ≤ g1 := by omega
      have hg2 : s.mounts.length - m1 ≤ g2 := by omega
      simp only [effectiveMountF, hmnt]
      exact ih m1 g1 g2 hm1 hj1 hg1 hg2

theorem effectiveMount_none {s : State} (h : wfB s = true) {m : MountId}
    (hmnt : (s.entry (s.mount m).root).mnt = none) : effectiveMount s m = m := by
  show effectiveMountF s.mounts.length s m = m
  obtain ⟨g, hg⟩ : ∃ g, s.mounts.length = g + 1 :=
    ⟨s.mounts.length - 1, (Nat.succ_pred_eq_of_pos (wf_mounts_pos h)).symm⟩
  rw [hg]
  simp only [effectiveMountF, hmnt]

theorem effectiveMount_step {s : State} (h : wfB s = true) {m m1 : MountId}
    (hm : m < s.mounts.length)
    (hmnt : (s.entry (s.mount m).root).mnt = some m1) :
    effectiveMount s m = effectiveMount s m1 := by
  have hlt : m < m1 := wf_mount_stack h hm hmnt
  have hm1 : m1 < s.mounts.length :=
    (wf_entry_mnt h (wf_mount_root_lt h hm) hmnt).1
  obtain ⟨g, hg⟩ : ∃ g, s.mounts.length = g + 1 :=
    ⟨s.mounts.length - 1, (Nat.succ_pred_eq_of_pos (wf_mounts_pos h)).symm⟩
  have hunfold : effectiveMountF (g + 1) s m = effectiveMountF g s m1 := by
    simp only [effectiveMountF, hmnt]
  have h1m1 : 1 ≤ m1 := Nat.succ_le_of_lt (Nat.lt_of_le_of_lt (Nat.zero_le m) hlt)
  have hgbound : s.mounts.length - m1 ≤ g := by
    rw [hg]
    calc g + 1 - m1 ≤ g + 1 - 1 := Nat.sub_le_sub_left h1m1 (g + 1)
      _ = g := Nat.succ_sub_one g
  show effectiveMountF s.mounts.length s m = effectiveMountF s.mounts.length s m1
  rw [hg, hunfold]
  exact effectiveMountF_stable h s.mounts.length m1 g (g + 1) hm1
    (Nat.sub_le _ _) hgbound (Nat.le_succ_of_le hgbound)

/-- The mount a stacked mount is located in is the mount whose root tops the
mounted-on entry's parent chain. -/
theorem wf_mnt_location {s : State} (h : wfB s = true) {m m1 : MountId}
    (hm : m < s.mounts.length)
    (hmnt : (s.entry (s.mount m).root).mnt = some m1) :
    (s.mount m1).location = some (m, (s.mount m).root) := by
  obtain ⟨hm1, pm, hloc, hpmlen, hproot⟩ :=
    wf_entry_mnt h (wf_mount_root_lt h hm) hmnt
  have htop : topOf s (s.mount m).root = (s.mount m).root :=
    topOf_none (by rw [wf_mount_root_ref h hm])
  have hpm : pm = m :=
    wf_unique_roots h hpmlen hm (hproot.trans htop)
  rw [hpm] at hloc
  exact hloc

/-- `effective_mountpoint` lands on an in-range mount with nothing stacked on
its root, and the effective root's surviving path names are those of the
original mount's root. -/
theorem effectiveMount_props {s : State} (h : wfB s = true) :
    ∀ j m, m < s.mounts.length → s.mounts.length - m ≤ j →
      effectiveMount s m < s.mounts.length ∧
      (s.entry (s.mount (effectiveMount s m)).root).mnt = none ∧
      cleanNames s ⟨effectiveMount s m, (s.mount (effectiveMount s m)).root⟩ =
        cleanNames s ⟨m, (s.mount m).root⟩ := by
  intro j
  induction j with
  | zero =>
    intro m hm hj
    exact absurd hj (Nat.not_le.mpr (Nat.sub_pos_of_lt hm))
  | succ j ih =>
    intro m hm hj
    cases hmnt : (s.entry (s.mount m).root).mnt with
    | none =>
      rw [effectiveMount_none h hmnt]
      exact ⟨hm, hmnt, rfl⟩
    | some m1 =>
      have hlt : m < m1 := wf_mount_stack h hm hmnt
      have hm1 : m1 < s.mounts.length :=
        (wf_entry_mnt h (wf_mount_root_lt h hm) hmnt).1
      have hj1 : s.mounts.length - m1 ≤ j := by
        have := Nat.sub_lt_sub_left hm hlt
        omega
      obtain ⟨p1, p2, p3⟩ := ih m1 hm1 hj1
      rw [effectiveMount_step h hm hmnt]
      refine ⟨p1, p2, p3.trans ?_⟩
      rw [cleanNames_mount_root h hm1, wf_mnt_location h hm hmnt]

theorem absolutePath_eq {s : State} (h : wfB s = true) (loc : Location)
    (hm : loc.mount < s.mounts.length) :
    absolutePath s loc =
      Component.rootDir :: ((cleanNames s loc).reverse.map Component.normal) := by
  show Component.rootDir ::
      (((absolutePathF (s.mounts.length + 1) s loc []).reverse.filter
        (fun n => n ≠ "")).map Component.normal) = _
  rw [show loc = Location.mk loc.mount loc.entry from rfl,
    absolutePathF_stable h loc.mount loc.entry (s.mounts.length + 1)
      (loc.mount + 1) (Nat.lt_succ_of_lt hm) (Nat.lt_succ_self loc.mount)]
  rw [List.filter_reverse]
  rfl

/-! #### Cached resolution steps -/

/-- The invariant resolution maintains on locations: in-range mount and
entry, and the entry's parent chain topping out at the mount's root
dentry. -/
def LocInv (s : State) (loc : Location) : Prop :=
  loc.mount < s.mounts.length ∧ loc.entry < s.entries.length ∧
  topOf s loc.entry = (s.mount loc.mount).root

theorem verifyEntryName_ok {n : String} (h : verifyEntryName n = .ok ()) :
    n ≠ "" ∧ n ≠ "." ∧ n ≠ ".." := by
  refine ⟨?_, ?_, ?_⟩ <;> rintro rfl <;> exact absurd h (by decide)

theorem cleanNames_rootLoc {s : State} (h : wfB s = true) :
    cleanNames s (rootLoc s) = [] := by
  show cleanNames s ⟨0, (s.mount 0).root⟩ = []
  rw [cleanNames_mount_root h (wf_mounts_pos h), wf_root_mount_loc h]

theorem locInv_root {s : State} (h : wfB s = true) : LocInv s (rootLoc s) :=
  ⟨wf_mounts_pos h, wf_mount_root_lt h (wf_mounts_pos h),
    topOf_none (by
      show (s.entry (s.mount 0).root).ref.parent = none
      rw [wf_mount_root_ref h (wf_mounts_pos h)])⟩

/-- A cached resolution step preserves the location invariant and pushes
exactly its name onto the surviving path names. -/
theorem cachedStep_props {s : State} (h : wfB s = true) {loc : Location}
    {n : String} {loc1 : Location} (hinv : LocInv s loc)
    (hstep : CachedStep s loc n loc1) :
    LocInv s loc1 ∧ cleanNames s loc1 = n :: cleanNames s loc := by
  obtain ⟨hv, hk, hca, c, hc, hloc1⟩ := hstep
  obtain ⟨hmlt, helt, htop⟩ := hinv
  have hmem : (n, c) ∈ (s.entry loc.entry).cache := assocGet_mem hc
  have hwfc := wf_cacheWF h
  have hcref : (s.entry c).ref = ⟨some loc.entry, n⟩ := hwfc.2.1 _ _ hmem
  have hclt : c < s.entries.length := hwfc.2.2.2.2 _ _ hmem
  have hcparent : (s.entry c).ref.parent = some loc.entry := by rw [hcref]
  have hcname : (s.entry c).ref.name = n := by rw [hcref]
  have hctop : topOf s c = (s.mount loc.mount).root :=
    (topOf_parent (wf_parentDec h) hcparent).trans htop
  have hnne : n ≠ "" := (verifyEntryName_ok hv).1
  have hclean : cleanNames s ⟨loc.mount, c⟩ = n :: cleanNames s loc := by
    show (pathNames s ⟨loc.mount, c⟩).filter (fun x => x ≠ "") = _
    rw [pathNames_eq h ⟨loc.mount, c⟩ hclt,
      absNames_parent (wf_parentDec h) hcparent, hcname]
    simp only [cleanNames]
    rw [pathNames_eq h loc helt]
    simp [hnne]
  cases hmn : (if (s.entry c).kind = NodeKind.dir then (s.entry c).mnt else none) with
  | none =>
    have hl1 : loc1 = ⟨loc.mount, c⟩ := by
      rw [hloc1]
      simp only [resolveMountpoint, hmn]
    subst hl1
    exact ⟨⟨hmlt, hclt, hctop⟩, hclean⟩
  | some m0 =>
    have hcm : (s.entry c).mnt = some m0 := by
      by_cases hdk : (s.entry c).kind = NodeKind.dir
      · rw [if_pos hdk] at hmn
        exact hmn
      · rw [if_neg hdk] at hmn
        exact absurd hmn (by simp)
    obtain ⟨hm0lt, pm, hploc, hpmlt, hproot⟩ := wf_entry_mnt h hclt hcm
    have hpm : pm = loc.mount :=
      wf_unique_roots h hpmlt hmlt (hproot.trans hctop)
    subst hpm
    have hl1 : loc1 = ⟨effectiveMount s m0, (s.mount (effectiveMount s m0)).root⟩ := by
      rw [hloc1]
      simp only [resolveMountpoint, hmn]
    obtain ⟨hefflt, heffmnt, heffclean⟩ :=
      effectiveMount_props h s.mounts.length m0 hm0lt (Nat.sub_le _ _)
    subst hl1
    refine ⟨⟨hefflt, wf_mount_root_lt h hefflt,
      topOf_none (by rw [wf_mount_root_ref h hefflt])⟩, ?_⟩
    rw [heffclean, cleanNames_mount_root h hm0lt, hploc]
    exact hclean

/-- A cached step is computed by `Location::lookup` without touching the
heap. -/
theorem locationLookup_cached {s : State} {loc : Location} {n : String}
    {loc1 : Location} (hstep : CachedStep s loc n loc1) :
    locationLookup s loc n = (.ok loc1, s) := by
  obtain ⟨hv, hk, hca, c, hc, hloc1⟩ := hstep
  obtain ⟨hne, hnd, hndd⟩ := verifyEntryName_ok hv
  have hkf : ¬((s.entry loc.entry).kind = NodeKind.file) := by
    rw [hk]
    simp
  have hdl : dirLookup s loc.entry n = (.ok c, s) := by
    simp only [dirLookup, hca, if_pos]
    simp only [lookupLocked, hc]
  show lookupNoFollow s loc n = _
  simp only [lookupNoFollow, if_neg hnd, if_neg hndd, if_neg hkf, hdl]
  rw [hloc1]

theorem resolveComps_append (r : FsResolver) :
    ∀ (p1 p2 : List Component) (s : State) (dir : Location),
      resolveComps r (p1 ++ p2) s dir =
        match resolveComps r p1 s dir with
        | (.error e, s1) => (.error e, s1)
        | (.ok d1, s1) => resolveComps r p2 s1 d1 := by
  intro p1
  induction p1 with
  | nil =>
    intro p2 s dir
    rfl
  | cons c rest ih =>
    intro p2 s dir
    cases c with
    | curDir => exact ih p2 s dir
    | parentDir => exact ih p2 s ((locationParent s dir).getD r.root_dir)
    | rootDir => exact ih p2 s r.root_dir
    | normal n =>
      rcases hll : locationLookup s dir n with ⟨res, s1⟩
      cases res with
      | error e => simp only [List.cons_append, resolveComps, hll]
      | ok d1 =>
        simp only [List.cons_append, resolveComps, hll]
        exact ih p2 s1 d1

/-- Locations reachable by cached steps satisfy the invariant, and the
component walk of their reconstructed path ends exactly on them, without
touching the heap (from any starting directory: the path begins with the
root component, which resets the walk to the pinned root). -/
theorem reachable_walk {s : State} (h : wfB s = true) {loc : Location}
    (hr : Reachable s loc) :
    LocInv s loc ∧ ∀ dir, resolveComps (rootResolver s)
      (Component.rootDir :: ((cleanNames s loc).reverse.map Component.normal))
      s dir = (.ok loc, s) := by
  induction hr with
  | root =>
    refine ⟨locInv_root h, ?_⟩
    intro dir
    rw [cleanNames_rootLoc h]
    rfl
  | @step loc0 n loc1 hr0 hstep ih =>
    obtain ⟨hinv0, hwalk0⟩ := ih
    obtain ⟨hinv1, hclean⟩ := cachedStep_props h hinv0 hstep
    refine ⟨hinv1, ?_⟩
    intro dir
    rw [hclean]
    have hpath : (Component.rootDir ::
        ((n :: cleanNames s loc0).reverse.map Component.normal)) =
        (Component.rootDir ::
          ((cleanNames s loc0).reverse.map Component.normal))
          ++ [Component.normal n] := by
      simp
    rw [hpath, resolveComps_append, hwalk0 dir]
    show resolveComps (rootResolver s) [Component.normal n] s loc0 =
      (.ok loc1, s)
    simp only [resolveComps, locationLookup_cached hstep]

theorem fileName_concat (p : Path) (n : String) :
    fileName (p ++ [Component.normal n]) = some n := by
  simp [fileName, List.getLast?_concat]

/-- C3, amended.  For every location reachable from the namespace root by
fully cached resolution steps (its dentry chain lies in the caches of
cacheable directories, crossing mountpoints), resolving its absolute path
with the root resolver returns exactly that location — pointer-equal mount
and dentry — and leaves the heap untouched.  Through a non-cacheable
directory the claim fails (`c3_roundtrip_counterexample`): each lookup
materialises a fresh dentry. -/
theorem c3_roundtrip_cached (s : State) (loc : Location)
    (hwf : wfB s = true) (hr : Reachable s loc) :
    resolve s (rootResolver s) (absolutePath s loc) = (.ok loc, s) := by
  obtain ⟨hinv, hwalk⟩ := reachable_walk hwf hr
  rw [absolutePath_eq hwf loc hinv.1]
  cases hr with
  | root =>
    rw [cleanNames_rootLoc hwf]
    have hkind : (s.entry (s.mount 0).root).kind = NodeKind.dir :=
      wf_mount_root_kind hwf (wf_mounts_pos hwf)
    have hchk : checkIsDir s (rootLoc s) = .ok () := by
      show (if (s.entry (s.mount 0).root).kind = NodeKind.dir then
        (Except.ok () : Except VfsError Unit) else .error .ENOTDIR) = .ok ()
      rw [if_pos hkind]
    have hri : resolveInner s (rootResolver s) [Component.rootDir] =
        (.ok (rootLoc s, none), s) := by
      show (match checkIsDir s (rootLoc s) with
        | .error e =>
          ((.error e, s) : Except VfsError (Location × Option String) × State)
        | .ok _ => (.ok (rootLoc s, (none : Option String)), s)) =
        (.ok (rootLoc s, none), s)
      rw [hchk]
    show resolve s (rootResolver s) [Component.rootDir] = (.ok (rootLoc s), s)
    simp only [resolve, hri]
  | @step loc0 n loc1 hr0 hstep =>
    obtain ⟨hinv0, hwalk0⟩ := reachable_walk hwf hr0
    obtain ⟨hinv1, hclean⟩ := cachedStep_props hwf hinv0 hstep
    rw [hclean]
    have hpath : (Component.rootDir ::
        ((n :: cleanNames s loc0).reverse.map Component.normal)) =
        (Component.rootDir ::
          ((cleanNames s loc0).reverse.map Component.normal))
          ++ [Component.normal n] := by
      simp
    rw [hpath]
    have hfn : fileName ((Component.rootDir ::
        ((cleanNames s loc0).reverse.map Component.normal))
        ++ [Component.normal n]) = some n := fileName_concat _ n
    have hdrop : ((Component.rootDir ::
        ((cleanNames s loc0).reverse.map Component.normal))
        ++ [Component.normal n]).dropLast =
        Component.rootDir ::
          ((cleanNames s loc0).reverse.map Component.normal) :=
      List.dropLast_concat
    have hkd : checkIsDir s loc0 = .ok () := by
      show (if (s.entry loc0.entry).kind = NodeKind.dir then
        (Except.ok () : Except VfsError Unit) else .error .ENOTDIR) = .ok ()
      rw [if_pos hstep.2.1]
    have hri : resolveInner s (rootResolver s)
        ((Component.rootDir ::
          ((cleanNames s loc0).reverse.map Component.normal))
          ++ [Component.normal n]) = (.ok (loc0, some n), s) := by
      simp only [resolveInner, hfn, Option.isSome_some, if_true, hdrop,
        hwalk0 (rootResolver s).current_dir, hkd]
    simp only [resolve, hri, locationLookup_cached hstep]

/-- C3, witness: in the two-mount heap `S4`, the file `f` of the mounted
filesystem is reached by two cached steps (the first crossing the mount
stacked on `/mnt`); resolving its absolute path `/mnt/f` returns the very
same location and leaves the heap untouched. -/
theorem c3_roundtrip_cached_witness :
    wfB S4 = true ∧
    resolve S4 (rootResolver S4) (absolutePath S4 ⟨1, 3⟩) = (.ok ⟨1, 3⟩, S4) := by
  refine ⟨by decide, c3_roundtrip_cached S4 ⟨1, 3⟩ (by decide) ?_⟩
  exact @Reachable.step S4 ⟨1, 2⟩ "f" ⟨1, 3⟩
    (@Reachable.step S4 (rootLoc S4) "mnt" ⟨1, 2⟩ Reachable.root
      ⟨by decide, by decide, by decide, 1, by decide, by decide⟩)
    ⟨by decide, by decide, by decide, 3, by decide, by decide⟩

end AxfsVfs
